import Mathlib

/-!
# Verification of the sorted approximate-join engine (src/src/join.c)

Shallow embedding of the C join functions of the MsCoreUtils repository:
`C_join_outer`, `C_join_left`, `C_join_outer2`, `C_join_left2`,
`C_join_inner2`, together with the duplicate resolver
`C_closest_dup_closest` (whose implementation is not part of the sources,
only its declaration and call sites; it is modelled from the spec).

Machine doubles are modelled as exact rationals (`ℚ`), `R_PosInf` as the
`none` value of `Option ℚ` (see `bltQI`), `NA_INTEGER` as the `none` value
of `Option ℕ`, and the R-level `error` call as a `none` result
(`Option (...)`), since the only error in these functions is the
tolerance-length usage error raised before any output is produced.
-/

namespace MsJoin

/-- One output row: 1-based index into `x` (or `NA`), 1-based index into `y`
(or `NA`). -/
abbrev Row := Option ℕ × Option ℕ

/-- Comparison `bltQI a b`, i.e. `a < b` in the sense `a < b` where `none` stands for `R_PosInf`
(used for the out-of-range look-ahead differences in the C code). -/
def bltQI : Option ℚ → Option ℚ → Bool
  | some p, some q => decide (p < q)
  | some _, none => true
  | none, _ => false

/-- Rewrite the last element of a list in place (the C code's
`idx--; pres.[idx] = ...` pattern followed by a fresh write at `idx + 1`
amounts to rewriting the most recently committed row). -/
def setLast : List Row → (Row → Row) → List Row
  | [], _ => []
  | [a], f => [f a]
  | a :: b :: rest, f => a :: setLast (b :: rest) f

/-- The `idiff` quantity: absolute difference of the current pair `x[xi]`, `y[yi]`. -/
def curDiff (x y : List ℚ) (xi yi : ℕ) : ℚ :=
  |x.getD xi 0 - y.getD yi 0|

/-- The `xdiff` quantity: look-ahead difference after advancing the `x` cursor
(`R_PosInf`, i.e. `none`, past the end of `x`). -/
def lookX (x y : List ℚ) (xi yi : ℕ) : Option ℚ :=
  if xi + 1 < x.length then some |x.getD (xi + 1) 0 - y.getD yi 0| else none

/-- The `ydiff` quantity: look-ahead difference after advancing the `y` cursor. -/
def lookY (x y : List ℚ) (xi yi : ℕ) : Option ℚ :=
  if yi + 1 < y.length then some |x.getD xi 0 - y.getD (yi + 1) 0| else none

/-- The `diffnxtxy` quantity of `C_join_outer2`: look-ahead difference after advancing
both cursors. -/
def lookXY (x y : List ℚ) (xi yi : ℕ) : Option ℚ :=
  if xi + 1 < x.length ∧ yi + 1 < y.length then
    some |x.getD (xi + 1) 0 - y.getD (yi + 1) 0|
  else none

/-- Loop state of `C_join_outer`: cursors `xi`, `yi`, the direction flag
`i_path` (1 = previous step incremented `y`, -1 = incremented `x`, 0 = no),
and the rows committed so far (`presx`/`presy` up to `idx`). -/
structure OuterState where
  xi : ℕ
  yi : ℕ
  ipath : ℤ
  out : List Row
  deriving DecidableEq

/-- One iteration of the `while (xi < lx || yi < ly)` loop of
`C_join_outer` (src/src/join.c lines 115-188). -/
def outerStep (x y tol : List ℚ) (s : OuterState) : OuterState :=
  if x.length ≤ s.xi then
    -- drain the remaining y elements
    ⟨s.xi, s.yi + 1, s.ipath, s.out ++ [(none, some (s.yi + 1))]⟩
  else if y.length ≤ s.yi then
    -- drain the remaining x elements
    ⟨s.xi + 1, s.yi, s.ipath, s.out ++ [(some (s.xi + 1), none)]⟩
  else
    let idiff := curDiff x y s.xi s.yi
    if idiff ≤ tol.getD s.xi 0 then
      let xdiff := lookX x y s.xi s.yi
      let ydiff := lookY x y s.xi s.yi
      if bltQI xdiff (some idiff) || bltQI ydiff (some idiff) then
        if bltQI xdiff ydiff then
          if 0 < s.ipath then
            -- issue #66: idx--; presx[idx] = xi_next
            ⟨s.xi + 1, s.yi, -1, setLast s.out fun r => (some (s.xi + 1), r.2)⟩
          else
            ⟨s.xi + 1, s.yi, -1, s.out ++ [(some (s.xi + 1), none)]⟩
        else
          if s.ipath < 0 then
            -- issue #66: idx--; presy[idx] = yi_next
            ⟨s.xi, s.yi + 1, 1, setLast s.out fun r => (r.1, some (s.yi + 1))⟩
          else
            ⟨s.xi, s.yi + 1, 1, s.out ++ [(none, some (s.yi + 1))]⟩
      else
        ⟨s.xi + 1, s.yi + 1, 0, s.out ++ [(some (s.xi + 1), some (s.yi + 1))]⟩
    else
      if x.getD s.xi 0 < y.getD s.yi 0 then
        ⟨s.xi + 1, s.yi, 0, s.out ++ [(some (s.xi + 1), none)]⟩
      else
        ⟨s.xi, s.yi + 1, 0, s.out ++ [(none, some (s.yi + 1))]⟩

/-- Guarded step: apply `outerStep` while the loop condition
`xi < lx || yi < ly` holds, otherwise do nothing. -/
def outerStepG (x y tol : List ℚ) (s : OuterState) : OuterState :=
  if s.xi < x.length ∨ s.yi < y.length then outerStep x y tol s else s

/-- The state after `k` loop iterations of `C_join_outer`, starting from
`xi = yi = 0`, `i_path = 0`, empty output. -/
def outerRun (x y tol : List ℚ) (k : ℕ) : OuterState :=
  (outerStepG x y tol)^[k] ⟨0, 0, 0, []⟩

/-- Entry point `C_join_outer`: checks the tolerance length (the R `error` call is
modelled as `none`), then runs the scan loop; `lx + ly` iterations always
suffice (proved below). The C code truncates the `lx + ly`-sized buffers to
the `idx + 1` committed rows, which is exactly `out`. -/
def joinOuter (x y tol : List ℚ) : Option (List Row) :=
  if x.length = tol.length then
    some ((outerRun x y tol (x.length + y.length)).out)
  else none

/-! ## C_join_left (direct two-pointer scan, src/src/join.c lines 218-301) -/

/-- Loop state of `C_join_left`: cursors `xi`, `yi`, the pair
`(xi_last_used, yi_last_used)` recording the previous accepted hit
(`none` models the initial values `-1` / cast `R_PosInf`, which can never
satisfy the guard `yi == yi_last_used` since `yi >= 0`), and the output
buffer of length `lx` (uninitialized in C, modelled as `(none, none)`
slots, every one of which is overwritten before the loop ends). -/
structure LeftState where
  xi : ℕ
  yi : ℕ
  lastUsed : Option (ℕ × ℕ)
  buf : List Row
  deriving DecidableEq

/-- The cursor-increment decision shared by both tolerance branches of
`C_join_left`: advance the cursor whose look-ahead distance is smaller
when one of them improves on the current distance, otherwise advance
both. -/
def leftAdvance (x y : List ℚ) (xi yi : ℕ) : ℕ × ℕ :=
  if bltQI (lookX x y xi yi) (some (curDiff x y xi yi)) ||
      bltQI (lookY x y xi yi) (some (curDiff x y xi yi)) then
    if bltQI (lookX x y xi yi) (lookY x y xi yi) then (xi + 1, yi) else (xi, yi + 1)
  else (xi + 1, yi + 1)

/-- The buffer update of one `C_join_left` iteration with `yi < ly`: write
the current row at index `xi`, and on an acceptable match possibly retract
the right column of the previous hit with the same `yi`
("Remove last hit with same yi if we incremented xi and will NOT increment
yi next"). -/
def leftBufUpdate (x y tol : List ℚ) (s : LeftState) : List Row :=
  if curDiff x y s.xi s.yi ≤ tol.getD s.xi 0 then
    match s.lastUsed with
    | some (xl, yl) =>
        if s.yi = yl ∧ xl < s.xi then
          if bltQI (some (curDiff x y s.xi s.yi)) (lookY x y s.xi s.yi) ||
              bltQI (lookX x y s.xi s.yi) (lookY x y s.xi s.yi) then
            (s.buf.set s.xi (some (s.xi + 1), some (s.yi + 1))).set xl
              (((s.buf.set s.xi (some (s.xi + 1), some (s.yi + 1))).getD xl
                (none, none)).1, none)
          else s.buf.set s.xi (some (s.xi + 1), some (s.yi + 1))
        else s.buf.set s.xi (some (s.xi + 1), some (s.yi + 1))
    | none => s.buf.set s.xi (some (s.xi + 1), some (s.yi + 1))
  else s.buf.set s.xi (some (s.xi + 1), none)

/-- One iteration of the `while (xi < lx)` loop of `C_join_left`:
`xi_last_used`/`yi_last_used` are refreshed only on an acceptable match. -/
def leftStep (x y tol : List ℚ) (s : LeftState) : LeftState :=
  if s.yi < y.length then
    ⟨(leftAdvance x y s.xi s.yi).1, (leftAdvance x y s.xi s.yi).2,
      if curDiff x y s.xi s.yi ≤ tol.getD s.xi 0 then some (s.xi, s.yi)
      else s.lastUsed,
      leftBufUpdate x y tol s⟩
  else
    -- Just fill-up the result.
    ⟨s.xi + 1, s.yi, s.lastUsed, s.buf.set s.xi (some (s.xi + 1), none)⟩

/-- Guarded step for the `while (xi < lx)` loop. -/
def leftStepG (x y tol : List ℚ) (s : LeftState) : LeftState :=
  if s.xi < x.length then leftStep x y tol s else s

/-- The state after `k` loop iterations of `C_join_left`. -/
def leftRun (x y tol : List ℚ) (k : ℕ) : LeftState :=
  (leftStepG x y tol)^[k] ⟨0, 0, none, List.replicate x.length (none, none)⟩

/-- Entry point `C_join_left`: tolerance length check, then the scan (at most
`lx + ly` iterations, proved below). -/
def joinLeft (x y tol : List ℚ) : Option (List Row) :=
  if x.length = tol.length then
    some ((leftRun x y tol (x.length + y.length)).buf)
  else none

/-! ## C_join_outer2 (src/src/join.c lines 303-381)

This variant carries an explicit `nomatch` sentinel (`ℤ`) instead of
`NA_INTEGER` and performs no tolerance length validation at all; an
out-of-range `ptolerance[ix]` read (possible on malformed input) is
modelled as the default value `0`. -/

/-- Loop state of `C_join_outer2`. -/
structure Outer2State where
  ix : ℕ
  iy : ℕ
  out : List (ℤ × ℤ)
  deriving DecidableEq

/-- One iteration of the `while (ix < nx || iy < ny)` loop of
`C_join_outer2`. -/
def outer2Step (x y tol : List ℚ) (nm : ℤ) (s : Outer2State) : Outer2State :=
  if x.length ≤ s.ix then
    ⟨s.ix, s.iy + 1, s.out ++ [(nm, (s.iy : ℤ) + 1)]⟩
  else if y.length ≤ s.iy then
    ⟨s.ix + 1, s.iy, s.out ++ [((s.ix : ℤ) + 1, nm)]⟩
  else
    let diff := curDiff x y s.ix s.iy
    if diff ≤ tol.getD s.ix 0 then
      let diffnxtx := lookX x y s.ix s.iy
      let diffnxty := lookY x y s.ix s.iy
      let diffnxtxy := lookXY x y s.ix s.iy
      if (bltQI diffnxtx (some diff) && bltQI diffnxtx diffnxtxy) ||
          (bltQI diffnxty (some diff) && bltQI diffnxty diffnxtxy) then
        if bltQI diffnxtx diffnxty then
          ⟨s.ix + 1, s.iy, s.out ++ [((s.ix : ℤ) + 1, nm)]⟩
        else
          ⟨s.ix, s.iy + 1, s.out ++ [(nm, (s.iy : ℤ) + 1)]⟩
      else
        ⟨s.ix + 1, s.iy + 1, s.out ++ [((s.ix : ℤ) + 1, (s.iy : ℤ) + 1)]⟩
    else
      if x.getD s.ix 0 < y.getD s.iy 0 then
        ⟨s.ix + 1, s.iy, s.out ++ [((s.ix : ℤ) + 1, nm)]⟩
      else
        ⟨s.ix, s.iy + 1, s.out ++ [(nm, (s.iy : ℤ) + 1)]⟩

/-- Guarded step for `C_join_outer2`. -/
def outer2StepG (x y tol : List ℚ) (nm : ℤ) (s : Outer2State) : Outer2State :=
  if s.ix < x.length ∨ s.iy < y.length then outer2Step x y tol nm s else s

/-- Entry point `C_join_outer2`: no validation whatsoever; the result type is still
`Option` so that the error behaviour of all join entry points can be
compared, but this function never returns `none`. -/
def joinOuter2 (x y tol : List ℚ) (nm : ℤ) : Option (List (ℤ × ℤ)) :=
  some (((outer2StepG x y tol nm)^[x.length + y.length] ⟨0, 0, []⟩).out)

/-! ## Duplicate resolver (closest policy) and the joins built on it -/

/-- First (lowest-index) minimizer of `|c - y_j|` over `y`, with its
distance. -/
def bestIdx (c : ℚ) : List ℚ → Option (ℕ × ℚ)
  | [] => none
  | v :: rest =>
      match bestIdx c rest with
      | none => some (0, |c - v|)
      | some (j, d) => if d < |c - v| then some (j + 1, d) else some (0, |c - v|)

/-- Best acceptable right-side candidate (0-based) for `left[i]`: the
closest `y_j`, provided its distance is within `tolerance[i]`. Because the
closest candidate has minimal distance, no candidate is acceptable when it
is not. -/
def stage1 (x y tol : List ℚ) (i : ℕ) : Option ℕ :=
  match bestIdx (x.getD i 0) y with
  | none => none
  | some (j, d) => if d ≤ tol.getD i 0 then some j else none

/-- Claimant `i2` beats `i` for right index `j`: strictly smaller distance, or equal
distance and lower left index. -/
def beats (x y : List ℚ) (j i2 i : ℕ) : Bool :=
  decide (|x.getD i2 0 - y.getD j 0| < |x.getD i 0 - y.getD j 0|) ||
    (decide (|x.getD i2 0 - y.getD j 0| = |x.getD i 0 - y.getD j 0|) && decide (i2 < i))

/-- Modelled from the spec: the resolved value for `left[i]` under the
`closest` policy: its best acceptable candidate (1-based) unless some
other claimant of the same right index beats it, in which case the
sentinel. -/
def resolverVal (x y tol : List ℚ) (nm : ℤ) (i : ℕ) : ℤ :=
  match stage1 x y tol i with
  | none => nm
  | some j =>
      if (List.range x.length).any fun i2 =>
          decide (i2 ≠ i) && (stage1 x y tol i2 == some j) && beats x y j i2 i
      then nm
      else (j : ℤ) + 1

/-- Modelled from the spec: the core of `C_closest_dup_closest` (the
duplicate resolver with the `closest` policy), whose C implementation is
not among the sources (only its declaration in init.c and its call sites
in join.c are). Following spec section 4.1: for every `left[i]` the best
acceptable candidate index (1-based) or the `nomatch` sentinel; when
several left elements claim the same right index, only the claimant with
the smallest absolute difference keeps it (ties resolved towards the
lowest left index), the others are demoted to the sentinel. -/
def resolverOut (x y tol : List ℚ) (nm : ℤ) : List ℤ :=
  (List.range x.length).map (resolverVal x y tol nm)

/-- Modelled from the spec: `C_closest_dup_closest` entry point. The spec
(sections 4.1 and 7) declares a mismatched non-scalar tolerance length a
usage error reported before any output; a scalar tolerance is recycled to
the length of `x`. -/
def closestDupClosest (x y tol : List ℚ) (nm : ℤ) : Option (List ℤ) :=
  if tol.length = x.length then some (resolverOut x y tol nm)
  else if tol.length = 1 then
    some (resolverOut x y (List.replicate x.length (tol.getD 0 0)) nm)
  else none

/-- The `x` output column of `C_join_left2`: `px[i] = i + 1` (the parameter
`k` is the running offset of the C loop index). -/
def left2Rows (ry : List ℤ) (k : ℕ) : List (ℕ × ℤ) :=
  match ry with
  | [] => []
  | v :: rest => (k + 1, v) :: left2Rows rest (k + 1)

/-- Entry point `C_join_left2` (src/src/join.c lines 17-38): right column from the
resolver, left column `1..n`. -/
def joinLeft2 (x y tol : List ℚ) (nm : ℤ) : Option (List (ℕ × ℤ)) :=
  (closestDupClosest x y tol nm).map fun ry => left2Rows ry 0

/-- The compaction loop of `C_join_inner2` (src/src/join.c lines 60-66):
keep row `i` iff `py[i] != inomatch`, with `px[j] = i + 1` (the original
left index, NOT a renumbering). -/
def inner2Rows (ry : List ℤ) (nm : ℤ) (k : ℕ) : List (ℕ × ℤ) :=
  match ry with
  | [] => []
  | v :: rest =>
      if v = nm then inner2Rows rest nm (k + 1)
      else (k + 1, v) :: inner2Rows rest nm (k + 1)

/-- Entry point `C_join_inner2` (src/src/join.c lines 49-80). -/
def joinInner2 (x y tol : List ℚ) (nm : ℤ) : Option (List (ℕ × ℤ)) :=
  (closestDupClosest x y tol nm).map fun ry => inner2Rows ry nm 0

/-! ## Formalized claim statements (used to refute claims that fail) -/

/-- Claim C1 as stated: in the outer join, when the current pair is within
tolerance but one look-ahead distance is strictly better, the scan advances
only the cursor with the better look-ahead and emits the `OTHER` side's
current element as an unmatched row, except when the direction of
improvement is the `SAME` as the previous step's direction
(`i_path = -1` for an `x` advance, `i_path = 1` for a `y` advance), in
which case the previously emitted row is retroactively converted (output
index decremented and overwritten, so the row count does not grow) instead
of emitting a fresh unmatched row. -/
def ClaimC1Prop : Prop :=
  ∀ (x y tol : List ℚ) (s : OuterState),
    s.xi < x.length → s.yi < y.length →
    curDiff x y s.xi s.yi ≤ tol.getD s.xi 0 →
    (bltQI (lookX x y s.xi s.yi) (some (curDiff x y s.xi s.yi)) ||
      bltQI (lookY x y s.xi s.yi) (some (curDiff x y s.xi s.yi))) = true →
    (bltQI (lookX x y s.xi s.yi) (lookY x y s.xi s.yi) = true →
      (outerStep x y tol s).xi = s.xi + 1 ∧ (outerStep x y tol s).yi = s.yi ∧
      (s.ipath = -1 → (outerStep x y tol s).out.length = s.out.length) ∧
      (s.ipath ≠ -1 →
        (outerStep x y tol s).out = s.out ++ [(none, some (s.yi + 1))])) ∧
    (bltQI (lookX x y s.xi s.yi) (lookY x y s.xi s.yi) = false →
      (outerStep x y tol s).xi = s.xi ∧ (outerStep x y tol s).yi = s.yi + 1 ∧
      (s.ipath = 1 → (outerStep x y tol s).out.length = s.out.length) ∧
      (s.ipath ≠ 1 →
        (outerStep x y tol s).out = s.out ++ [(some (s.xi + 1), none)]))

/-- Claim C2 as stated: the inner join equals the left join with the
sentinel rows removed and the surviving left-column entries renumbered to
`1..k`. -/
def ClaimC2Prop : Prop :=
  ∀ (x y tol : List ℚ) (nm : ℤ),
    joinInner2 x y tol nm =
      (joinLeft2 x y tol nm).map fun rows =>
        ((rows.filter fun r => !(r.2 == nm)).enum).map fun p => (p.1 + 1, p.2.2)

/-- Claim C4 as stated: for `EVERY` join operation, a non-scalar tolerance
whose length does not match `length(x)` makes the call fail immediately
with a usage error (no partial result), and no such error occurs on
matching lengths. -/
def ClaimC4Prop : Prop :=
  ∀ (x y tol : List ℚ) (nm : ℤ),
    (tol.length ≠ 1 → tol.length ≠ x.length →
      joinOuter x y tol = none ∧ joinLeft x y tol = none ∧
      joinOuter2 x y tol nm = none ∧ joinLeft2 x y tol nm = none ∧
      joinInner2 x y tol nm = none) ∧
    (tol.length = x.length →
      joinOuter x y tol ≠ none ∧ joinLeft x y tol ≠ none ∧
      joinOuter2 x y tol nm ≠ none ∧ joinLeft2 x y tol nm ≠ none ∧
      joinInner2 x y tol nm ≠ none)

/-! ## Invariants of the two scan loops -/

/-- Row-wise ordering: every present index of the first row is at most
every present index of the second row, columnwise. -/
def RowLE (r1 r2 : Row) : Prop :=
  (∀ i1 ∈ r1.1, ∀ i2 ∈ r2.1, i1 ≤ i2) ∧ ∀ j1 ∈ r1.2, ∀ j2 ∈ r2.2, j1 ≤ j2

/-- Invariant of the `C_join_outer` scan loop. -/
structure OInv (x y tol : List ℚ) (s : OuterState) : Prop where
  hxi : s.xi ≤ x.length
  hyi : s.yi ≤ y.length
  hlen : s.out.length ≤ s.xi + s.yi
  hne : s.ipath ≠ 0 → s.out ≠ []
  hbnd : ∀ r ∈ s.out, (∀ i ∈ r.1, 1 ≤ i ∧ i ≤ s.xi) ∧ ∀ j ∈ r.2, 1 ≤ j ∧ j ≤ s.yi
  hmono : s.out.Pairwise RowLE
  hsound : ∀ r ∈ s.out, ∀ i ∈ r.1, ∀ j ∈ r.2,
    |x.getD (i - 1) 0 - y.getD (j - 1) 0| ≤ tol.getD (i - 1) 0
  hp1 : 0 < s.ipath → s.yi < y.length →
    s.xi < x.length ∧ 1 ≤ s.yi ∧
    |x.getD s.xi 0 - y.getD (s.yi - 1) 0| ≤ tol.getD s.xi 0 ∧
    ∃ rest r, s.out = rest ++ [r] ∧ r.2 = some s.yi
  hpm1 : s.ipath < 0 → s.xi < x.length →
    s.yi < y.length ∧ 1 ≤ s.xi ∧
    |x.getD (s.xi - 1) 0 - y.getD s.yi 0| ≤ tol.getD (s.xi - 1) 0 ∧
    ∃ rest r, s.out = rest ++ [r] ∧ r.1 = some s.xi

/-- Properties of the `C_join_left` output buffer: positions below `fx`
have their left column filled with the 1-based position; positions above
`ux` are still untouched; right-column entries are 1-based, bounded by
`yb`, within tolerance of their row, and non-decreasing across
positions. -/
def LBufProps (x y tol : List ℚ) (fx ux yb : ℕ) (buf : List Row) : Prop :=
  buf.length = x.length ∧
  (∀ i < fx, (buf.getD i (none, none)).1 = some (i + 1)) ∧
  (∀ i, ux < i → buf.getD i (none, none) = (none, none)) ∧
  (∀ i, ∀ j ∈ (buf.getD i (none, none)).2, 1 ≤ j ∧ j ≤ yb) ∧
  (∀ i, ∀ j ∈ (buf.getD i (none, none)).2,
    |x.getD i 0 - y.getD (j - 1) 0| ≤ tol.getD i 0) ∧
  ∀ i1 i2, i1 < i2 → ∀ j1 ∈ (buf.getD i1 (none, none)).2,
    ∀ j2 ∈ (buf.getD i2 (none, none)).2, j1 ≤ j2

/-- Invariant of the `C_join_left` scan loop (the right-column bound is
`yi + 1` because the row written for the current `yi` carries the 1-based
entry `yi + 1` even when only the `x` cursor advances afterwards). -/
structure LInv (x y tol : List ℚ) (s : LeftState) : Prop where
  hxi : s.xi ≤ x.length
  hyi : s.yi ≤ y.length
  hbuf : LBufProps x y tol s.xi s.xi (s.yi + 1) s.buf

/- Batteries marks the `Rat` arithmetic operations `@[irreducible]`, which
blocks `decide` from evaluating concrete rational computations; restore the
default reducibility for this file so that concrete runs of the embedded
algorithms can be checked by `decide`. -/
attribute [local semireducible] Rat.add Rat.sub Rat.mul Rat.inv Rat.ofScientific

/-! ## Helper lemmas -/

theorem setLast_append_singleton (l : List Row) (r : Row) (f : Row → Row) :
    setLast (l ++ [r]) f = l ++ [f r] := by
  induction l with
  | nil => rfl
  | cons a rest ih =>
      cases rest with
      | nil => rfl
      | cons b rest2 => simpa [setLast] using ih

theorem inner2Rows_eq_filter (ry : List ℤ) (nm : ℤ) :
    ∀ k, inner2Rows ry nm k = (left2Rows ry k).filter fun r => !(r.2 == nm) := by
  induction ry with
  | nil => intro k; rfl
  | cons v rest ih =>
      intro k
      by_cases hv : v = nm
      · simp [inner2Rows, left2Rows, hv, List.filter_cons, ih]
      · simp [inner2Rows, left2Rows, hv, List.filter_cons, ih]

theorem rowle_of_bounds {b r : Row} {n m : ℕ}
    (hb1 : ∀ i ∈ b.1, i ≤ n) (hb2 : ∀ j ∈ b.2, j ≤ m)
    (hr1 : ∀ i ∈ r.1, n ≤ i) (hr2 : ∀ j ∈ r.2, m ≤ j) : RowLE b r :=
  ⟨fun i1 h1 i2 h2 => le_trans (hb1 i1 h1) (hr1 i2 h2),
   fun j1 h1 j2 h2 => le_trans (hb2 j1 h1) (hr2 j2 h2)⟩

theorem pairwise_snoc {l : List Row} {r : Row} (h : l.Pairwise RowLE)
    (hall : ∀ b ∈ l, RowLE b r) : (l ++ [r]).Pairwise RowLE := by
  rw [List.pairwise_append]
  refine ⟨h, List.pairwise_singleton _ _, ?_⟩
  intro b hb c hc
  rw [List.mem_singleton] at hc
  subst hc
  exact hall b hb

section OuterStepBranches

variable (x y tol : List ℚ) (s : OuterState)

theorem outerStep_drainY (h : x.length ≤ s.xi) :
    outerStep x y tol s =
      ⟨s.xi, s.yi + 1, s.ipath, s.out ++ [(none, some (s.yi + 1))]⟩ := by
  unfold outerStep
  rw [if_pos h]

theorem outerStep_drainX (h1 : ¬ x.length ≤ s.xi) (h2 : y.length ≤ s.yi) :
    outerStep x y tol s =
      ⟨s.xi + 1, s.yi, s.ipath, s.out ++ [(some (s.xi + 1), none)]⟩ := by
  unfold outerStep
  rw [if_neg h1, if_pos h2]

theorem outerStep_accept (h1 : ¬ x.length ≤ s.xi) (h2 : ¬ y.length ≤ s.yi)
    (htol : curDiff x y s.xi s.yi ≤ tol.getD s.xi 0)
    (hnb : (bltQI (lookX x y s.xi s.yi) (some (curDiff x y s.xi s.yi)) ||
      bltQI (lookY x y s.xi s.yi) (some (curDiff x y s.xi s.yi))) = false) :
    outerStep x y tol s =
      ⟨s.xi + 1, s.yi + 1, 0, s.out ++ [(some (s.xi + 1), some (s.yi + 1))]⟩ := by
  unfold outerStep
  rw [if_neg h1, if_neg h2]
  simp only [if_pos htol, hnb, Bool.false_eq_true, if_false]

theorem outerStep_x66 (h1 : ¬ x.length ≤ s.xi) (h2 : ¬ y.length ≤ s.yi)
    (htol : curDiff x y s.xi s.yi ≤ tol.getD s.xi 0)
    (hb : (bltQI (lookX x y s.xi s.yi) (some (curDiff x y s.xi s.yi)) ||
      bltQI (lookY x y s.xi s.yi) (some (curDiff x y s.xi s.yi))) = true)
    (hxy : bltQI (lookX x y s.xi s.yi) (lookY x y s.xi s.yi) = true)
    (hp : 0 < s.ipath) :
    outerStep x y tol s =
      ⟨s.xi + 1, s.yi, -1, setLast s.out fun r => (some (s.xi + 1), r.2)⟩ := by
  unfold outerStep
  rw [if_neg h1, if_neg h2]
  simp only [if_pos htol, hb, if_true, hxy, if_pos hp]

theorem outerStep_xPlain (h1 : ¬ x.length ≤ s.xi) (h2 : ¬ y.length ≤ s.yi)
    (htol : curDiff x y s.xi s.yi ≤ tol.getD s.xi 0)
    (hb : (bltQI (lookX x y s.xi s.yi) (some (curDiff x y s.xi s.yi)) ||
      bltQI (lookY x y s.xi s.yi) (some (curDiff x y s.xi s.yi))) = true)
    (hxy : bltQI (lookX x y s.xi s.yi) (lookY x y s.xi s.yi) = true)
    (hp : ¬ 0 < s.ipath) :
    outerStep x y tol s =
      ⟨s.xi + 1, s.yi, -1, s.out ++ [(some (s.xi + 1), none)]⟩ := by
  unfold outerStep
  rw [if_neg h1, if_neg h2]
  simp only [if_pos htol, hb, if_true, hxy, if_neg hp]

theorem outerStep_y66 (h1 : ¬ x.length ≤ s.xi) (h2 : ¬ y.length ≤ s.yi)
    (htol : curDiff x y s.xi s.yi ≤ tol.getD s.xi 0)
    (hb : (bltQI (lookX x y s.xi s.yi) (some (curDiff x y s.xi s.yi)) ||
      bltQI (lookY x y s.xi s.yi) (some (curDiff x y s.xi s.yi))) = true)
    (hxy : bltQI (lookX x y s.xi s.yi) (lookY x y s.xi s.yi) = false)
    (hp : s.ipath < 0) :
    outerStep x y tol s =
      ⟨s.xi, s.yi + 1, 1, setLast s.out fun r => (r.1, some (s.yi + 1))⟩ := by
  unfold outerStep
  rw [if_neg h1, if_neg h2]
  simp only [if_pos htol, hb, if_true, hxy, Bool.false_eq_true, if_false, if_pos hp]

theorem outerStep_yPlain (h1 : ¬ x.length ≤ s.xi) (h2 : ¬ y.length ≤ s.yi)
    (htol : curDiff x y s.xi s.yi ≤ tol.getD s.xi 0)
    (hb : (bltQI (lookX x y s.xi s.yi) (some (curDiff x y s.xi s.yi)) ||
      bltQI (lookY x y s.xi s.yi) (some (curDiff x y s.xi s.yi))) = true)
    (hxy : bltQI (lookX x y s.xi s.yi) (lookY x y s.xi s.yi) = false)
    (hp : ¬ s.ipath < 0) :
    outerStep x y tol s =
      ⟨s.xi, s.yi + 1, 1, s.out ++ [(none, some (s.yi + 1))]⟩ := by
  unfold outerStep
  rw [if_neg h1, if_neg h2]
  simp only [if_pos htol, hb, if_true, hxy, Bool.false_eq_true, if_false, if_neg hp]

theorem outerStep_farX (h1 : ¬ x.length ≤ s.xi) (h2 : ¬ y.length ≤ s.yi)
    (htol : ¬ curDiff x y s.xi s.yi ≤ tol.getD s.xi 0)
    (hlt : x.getD s.xi 0 < y.getD s.yi 0) :
    outerStep x y tol s =
      ⟨s.xi + 1, s.yi, 0, s.out ++ [(some (s.xi + 1), none)]⟩ := by
  unfold outerStep
  rw [if_neg h1, if_neg h2]
  simp only [if_neg htol, if_pos hlt]

theorem outerStep_farY (h1 : ¬ x.length ≤ s.xi) (h2 : ¬ y.length ≤ s.yi)
    (htol : ¬ curDiff x y s.xi s.yi ≤ tol.getD s.xi 0)
    (hlt : ¬ x.getD s.xi 0 < y.getD s.yi 0) :
    outerStep x y tol s =
      ⟨s.xi, s.yi + 1, 0, s.out ++ [(none, some (s.yi + 1))]⟩ := by
  unfold outerStep
  rw [if_neg h1, if_neg h2]
  simp only [if_neg htol, if_neg hlt]

end OuterStepBranches

section OuterInvPreservation

variable {x y tol : List ℚ} {s : OuterState}

theorem OInv_drainY (H : OInv x y tol s)
    (h1 : x.length ≤ s.xi) (hy : s.yi < y.length) :
    OInv x y tol ⟨s.xi, s.yi + 1, s.ipath, s.out ++ [(none, some (s.yi + 1))]⟩ := by
  obtain ⟨hxi, hyi, hlen, hne, hbnd, hmono, hsound, hp1, hpm1⟩ := H
  refine ⟨hxi, hy, ?_, ?_, ?_, ?_, ?_, ?_, ?_⟩
  · simp only [List.length_append, List.length_singleton]
    omega
  · intro _
    simp
  · intro r hr
    rcases List.mem_append.mp hr with h | h
    · obtain ⟨hb1, hb2⟩ := hbnd r h
      exact ⟨hb1, fun j hj => ⟨(hb2 j hj).1, le_trans (hb2 j hj).2 (Nat.le_succ _)⟩⟩
    · rw [List.mem_singleton] at h
      subst h
      refine ⟨?_, ?_⟩
      · intro i hi
        simp at hi
      · intro j hj
        simp only [Option.mem_def, Option.some.injEq] at hj
        show 1 ≤ j ∧ j ≤ s.yi + 1
        omega
  · refine pairwise_snoc hmono fun b hb => ?_
    refine rowle_of_bounds (n := s.xi) (m := s.yi)
      (fun i hi => ((hbnd b hb).1 i hi).2) (fun j hj => ((hbnd b hb).2 j hj).2)
      (fun i hi => ?_) (fun j hj => ?_)
    · simp at hi
    · simp only [Option.mem_def, Option.some.injEq] at hj
      omega
  · intro r hr
    rcases List.mem_append.mp hr with h | h
    · exact hsound r h
    · rw [List.mem_singleton] at h
      subst h
      intro i hi
      simp at hi
  · intro hip hylt
    exact absurd (hp1 hip (lt_trans (Nat.lt_succ_self _) hylt)).1 (not_lt.mpr h1)
  · intro hip hxlt
    exact absurd hxlt (not_lt.mpr h1)

theorem OInv_drainX (H : OInv x y tol s)
    (h1 : ¬ x.length ≤ s.xi) (h2 : y.length ≤ s.yi) :
    OInv x y tol ⟨s.xi + 1, s.yi, s.ipath, s.out ++ [(some (s.xi + 1), none)]⟩ := by
  obtain ⟨hxi, hyi, hlen, hne, hbnd, hmono, hsound, hp1, hpm1⟩ := H
  refine ⟨not_le.mp h1, hyi, ?_, ?_, ?_, ?_, ?_, ?_, ?_⟩
  · simp only [List.length_append, List.length_singleton]
    omega
  · intro _
    simp
  · intro r hr
    rcases List.mem_append.mp hr with h | h
    · obtain ⟨hb1, hb2⟩ := hbnd r h
      exact ⟨fun i hi => ⟨(hb1 i hi).1, le_trans (hb1 i hi).2 (Nat.le_succ _)⟩, hb2⟩
    · rw [List.mem_singleton] at h
      subst h
      refine ⟨?_, ?_⟩
      · intro i hi
        simp only [Option.mem_def, Option.some.injEq] at hi
        show 1 ≤ i ∧ i ≤ s.xi + 1
        omega
      · intro j hj
        simp at hj
  · refine pairwise_snoc hmono fun b hb => ?_
    refine rowle_of_bounds (n := s.xi) (m := s.yi)
      (fun i hi => ((hbnd b hb).1 i hi).2) (fun j hj => ((hbnd b hb).2 j hj).2)
      (fun i hi => ?_) (fun j hj => ?_)
    · simp only [Option.mem_def, Option.some.injEq] at hi
      omega
    · simp at hj
  · intro r hr
    rcases List.mem_append.mp hr with h | h
    · exact hsound r h
    · rw [List.mem_singleton] at h
      subst h
      intro i hi j hj
      simp at hj
  · intro hip hylt
    exact absurd hylt (not_lt.mpr h2)
  · intro hip hxlt
    exact absurd (hpm1 hip (not_le.mp h1)).1 (not_lt.mpr h2)

theorem OInv_append_core {x y tol : List ℚ} {s : OuterState} {n' m' : ℕ} {r : Row}
    (H : OInv x y tol s) (hn : s.xi ≤ n') (hm : s.yi ≤ m')
    (hr1 : ∀ i ∈ r.1, 1 ≤ i ∧ s.xi ≤ i ∧ i ≤ n')
    (hr2 : ∀ j ∈ r.2, 1 ≤ j ∧ s.yi ≤ j ∧ j ≤ m')
    (hrs : ∀ i ∈ r.1, ∀ j ∈ r.2,
      |x.getD (i - 1) 0 - y.getD (j - 1) 0| ≤ tol.getD (i - 1) 0) :
    (∀ b ∈ s.out ++ [r], (∀ i ∈ b.1, 1 ≤ i ∧ i ≤ n') ∧
      ∀ j ∈ b.2, 1 ≤ j ∧ j ≤ m') ∧
    (s.out ++ [r]).Pairwise RowLE ∧
    ∀ b ∈ s.out ++ [r], ∀ i ∈ b.1, ∀ j ∈ b.2,
      |x.getD (i - 1) 0 - y.getD (j - 1) 0| ≤ tol.getD (i - 1) 0 := by
  refine ⟨?_, ?_, ?_⟩
  · intro b hb
    rcases List.mem_append.mp hb with h | h
    · obtain ⟨hb1, hb2⟩ := H.hbnd b h
      exact ⟨fun i hi => ⟨(hb1 i hi).1, le_trans (hb1 i hi).2 hn⟩,
             fun j hj => ⟨(hb2 j hj).1, le_trans (hb2 j hj).2 hm⟩⟩
    · rw [List.mem_singleton] at h
      subst h
      exact ⟨fun i hi => ⟨(hr1 i hi).1, (hr1 i hi).2.2⟩,
             fun j hj => ⟨(hr2 j hj).1, (hr2 j hj).2.2⟩⟩
  · refine pairwise_snoc H.hmono fun b hb => ?_
    exact rowle_of_bounds (n := s.xi) (m := s.yi)
      (fun i hi => ((H.hbnd b hb).1 i hi).2) (fun j hj => ((H.hbnd b hb).2 j hj).2)
      (fun i hi => (hr1 i hi).2.1) (fun j hj => (hr2 j hj).2.1)
  · intro b hb
    rcases List.mem_append.mp hb with h | h
    · exact H.hsound b h
    · rw [List.mem_singleton] at h
      subst h
      exact hrs

theorem OInv_accept (H : OInv x y tol s)
    (h1 : ¬ x.length ≤ s.xi) (h2 : ¬ y.length ≤ s.yi)
    (htol : curDiff x y s.xi s.yi ≤ tol.getD s.xi 0) :
    OInv x y tol
      ⟨s.xi + 1, s.yi + 1, 0, s.out ++ [(some (s.xi + 1), some (s.yi + 1))]⟩ := by
  obtain ⟨c1, c2, c3⟩ := OInv_append_core (r := (some (s.xi + 1), some (s.yi + 1)))
    H (Nat.le_succ _) (Nat.le_succ _)
    (fun i hi => by
      simp only [Option.mem_def, Option.some.injEq] at hi
      omega)
    (fun j hj => by
      simp only [Option.mem_def, Option.some.injEq] at hj
      omega)
    (fun i hi j hj => by
      simp only [Option.mem_def, Option.some.injEq] at hi hj
      subst hi
      subst hj
      simpa [curDiff] using htol)
  refine ⟨not_le.mp h1, not_le.mp h2, ?_, ?_, c1, c2, c3, ?_, ?_⟩
  · have := H.hlen
    simp only [List.length_append, List.length_singleton]
    omega
  · intro h
    exact absurd rfl h
  · intro hip
    norm_num at hip
  · intro hip
    norm_num at hip

theorem OInv_farX (H : OInv x y tol s)
    (h1 : ¬ x.length ≤ s.xi) (h2 : ¬ y.length ≤ s.yi) :
    OInv x y tol ⟨s.xi + 1, s.yi, 0, s.out ++ [(some (s.xi + 1), none)]⟩ := by
  obtain ⟨c1, c2, c3⟩ := OInv_append_core (r := (some (s.xi + 1), none))
    H (Nat.le_succ _) (le_refl _)
    (fun i hi => by
      simp only [Option.mem_def, Option.some.injEq] at hi
      omega)
    (fun j hj => by simp at hj)
    (fun i hi j hj => by simp at hj)
  refine ⟨not_le.mp h1, H.hyi, ?_, ?_, c1, c2, c3, ?_, ?_⟩
  · have := H.hlen
    simp only [List.length_append, List.length_singleton]
    omega
  · intro h
    exact absurd rfl h
  · intro hip
    norm_num at hip
  · intro hip
    norm_num at hip

theorem OInv_farY (H : OInv x y tol s)
    (h1 : ¬ x.length ≤ s.xi) (h2 : ¬ y.length ≤ s.yi) :
    OInv x y tol ⟨s.xi, s.yi + 1, 0, s.out ++ [(none, some (s.yi + 1))]⟩ := by
  obtain ⟨c1, c2, c3⟩ := OInv_append_core (r := (none, some (s.yi + 1)))
    H (le_refl _) (Nat.le_succ _)
    (fun i hi => by simp at hi)
    (fun j hj => by
      simp only [Option.mem_def, Option.some.injEq] at hj
      omega)
    (fun i hi j hj => by simp at hi)
  refine ⟨H.hxi, not_le.mp h2, ?_, ?_, c1, c2, c3, ?_, ?_⟩
  · have := H.hlen
    simp only [List.length_append, List.length_singleton]
    omega
  · intro h
    exact absurd rfl h
  · intro hip
    norm_num at hip
  · intro hip
    norm_num at hip

theorem OInv_xPlain (H : OInv x y tol s)
    (h1 : ¬ x.length ≤ s.xi) (h2 : ¬ y.length ≤ s.yi)
    (htol : curDiff x y s.xi s.yi ≤ tol.getD s.xi 0) :
    OInv x y tol ⟨s.xi + 1, s.yi, -1, s.out ++ [(some (s.xi + 1), none)]⟩ := by
  obtain ⟨c1, c2, c3⟩ := OInv_append_core (r := (some (s.xi + 1), none))
    H (Nat.le_succ _) (le_refl _)
    (fun i hi => by
      simp only [Option.mem_def, Option.some.injEq] at hi
      omega)
    (fun j hj => by simp at hj)
    (fun i hi j hj => by simp at hj)
  refine ⟨not_le.mp h1, H.hyi, ?_, ?_, c1, c2, c3, ?_, ?_⟩
  · have := H.hlen
    simp only [List.length_append, List.length_singleton]
    omega
  · intro _
    simp
  · intro hip
    norm_num at hip
  · intro _ _
    refine ⟨not_le.mp h2, Nat.succ_le_succ (Nat.zero_le _), ?_,
      s.out, (some (s.xi + 1), none), rfl, rfl⟩
    show |x.getD (s.xi + 1 - 1) 0 - y.getD s.yi 0| ≤ tol.getD (s.xi + 1 - 1) 0
    simpa [curDiff] using htol

theorem OInv_yPlain (H : OInv x y tol s)
    (h1 : ¬ x.length ≤ s.xi) (h2 : ¬ y.length ≤ s.yi)
    (htol : curDiff x y s.xi s.yi ≤ tol.getD s.xi 0) :
    OInv x y tol ⟨s.xi, s.yi + 1, 1, s.out ++ [(none, some (s.yi + 1))]⟩ := by
  obtain ⟨c1, c2, c3⟩ := OInv_append_core (r := (none, some (s.yi + 1)))
    H (le_refl _) (Nat.le_succ _)
    (fun i hi => by simp at hi)
    (fun j hj => by
      simp only [Option.mem_def, Option.some.injEq] at hj
      omega)
    (fun i hi j hj => by simp at hi)
  refine ⟨H.hxi, not_le.mp h2, ?_, ?_, c1, c2, c3, ?_, ?_⟩
  · have := H.hlen
    simp only [List.length_append, List.length_singleton]
    omega
  · intro _
    simp
  · intro _ _
    refine ⟨not_le.mp h1, Nat.succ_le_succ (Nat.zero_le _), ?_,
      s.out, (none, some (s.yi + 1)), rfl, rfl⟩
    show |x.getD s.xi 0 - y.getD (s.yi + 1 - 1) 0| ≤ tol.getD s.xi 0
    simpa [curDiff] using htol
  · intro hip
    norm_num at hip

theorem OInv_x66 (H : OInv x y tol s)
    (h1 : ¬ x.length ≤ s.xi) (h2 : ¬ y.length ≤ s.yi)
    (htol : curDiff x y s.xi s.yi ≤ tol.getD s.xi 0)
    (hp : 0 < s.ipath) :
    OInv x y tol
      ⟨s.xi + 1, s.yi, -1, setLast s.out fun r => (some (s.xi + 1), r.2)⟩ := by
  obtain ⟨hxlt, hy1, hs, rest, r, hout, hr2⟩ := H.hp1 hp (not_le.mp h2)
  have hso : (setLast s.out fun r => (some (s.xi + 1), r.2)) =
      rest ++ [(some (s.xi + 1), some s.yi)] := by
    rw [hout, setLast_append_singleton, hr2]
  rw [hso]
  have hrest_mem : ∀ b ∈ rest, b ∈ s.out := fun b hb => by
    rw [hout]
    exact List.mem_append_left _ hb
  refine ⟨not_le.mp h1, H.hyi, ?_, ?_, ?_, ?_, ?_, ?_, ?_⟩
  · have hL : s.out.length = rest.length + 1 := by
      rw [hout]
      simp
    have := H.hlen
    simp only [List.length_append, List.length_singleton]
    omega
  · intro _
    simp
  · intro b hb
    rcases List.mem_append.mp hb with h | h
    · obtain ⟨hb1, hb2⟩ := H.hbnd b (hrest_mem b h)
      exact ⟨fun i hi => ⟨(hb1 i hi).1, le_trans (hb1 i hi).2 (Nat.le_succ _)⟩, hb2⟩
    · rw [List.mem_singleton] at h
      subst h
      constructor
      · intro i hi
        simp only [Option.mem_def, Option.some.injEq] at hi
        show 1 ≤ i ∧ i ≤ s.xi + 1
        omega
      · intro j hj
        simp only [Option.mem_def, Option.some.injEq] at hj
        show 1 ≤ j ∧ j ≤ s.yi
        omega
  · have hmono' := H.hmono
    rw [hout, List.pairwise_append] at hmono'
    refine pairwise_snoc hmono'.1 fun b hb => ?_
    obtain ⟨hb1, hb2⟩ := H.hbnd b (hrest_mem b hb)
    exact rowle_of_bounds (n := s.xi) (m := s.yi)
      (fun i hi => (hb1 i hi).2) (fun j hj => (hb2 j hj).2)
      (fun i hi => by
        simp only [Option.mem_def, Option.some.injEq] at hi
        omega)
      (fun j hj => by
        simp only [Option.mem_def, Option.some.injEq] at hj
        omega)
  · intro b hb
    rcases List.mem_append.mp hb with h | h
    · exact H.hsound b (hrest_mem b h)
    · rw [List.mem_singleton] at h
      subst h
      intro i hi j hj
      simp only [Option.mem_def, Option.some.injEq] at hi hj
      subst hi
      subst hj
      simpa using hs
  · intro hip
    norm_num at hip
  · intro _ _
    refine ⟨not_le.mp h2, Nat.succ_le_succ (Nat.zero_le _), ?_,
      rest, (some (s.xi + 1), some s.yi), rfl, rfl⟩
    show |x.getD (s.xi + 1 - 1) 0 - y.getD s.yi 0| ≤ tol.getD (s.xi + 1 - 1) 0
    simpa [curDiff] using htol

theorem OInv_y66 (H : OInv x y tol s)
    (h1 : ¬ x.length ≤ s.xi) (h2 : ¬ y.length ≤ s.yi)
    (htol : curDiff x y s.xi s.yi ≤ tol.getD s.xi 0)
    (hp : s.ipath < 0) :
    OInv x y tol
      ⟨s.xi, s.yi + 1, 1, setLast s.out fun r => (r.1, some (s.yi + 1))⟩ := by
  obtain ⟨hylt, hx1, hs, rest, r, hout, hr1⟩ := H.hpm1 hp (not_le.mp h1)
  have hso : (setLast s.out fun r => (r.1, some (s.yi + 1))) =
      rest ++ [(some s.xi, some (s.yi + 1))] := by
    rw [hout, setLast_append_singleton, hr1]
  rw [hso]
  have hrest_mem : ∀ b ∈ rest, b ∈ s.out := fun b hb => by
    rw [hout]
    exact List.mem_append_left _ hb
  refine ⟨H.hxi, not_le.mp h2, ?_, ?_, ?_, ?_, ?_, ?_, ?_⟩
  · have hL : s.out.length = rest.length + 1 := by
      rw [hout]
      simp
    have := H.hlen
    simp only [List.length_append, List.length_singleton]
    omega
  · intro _
    simp
  · intro b hb
    rcases List.mem_append.mp hb with h | h
    · obtain ⟨hb1, hb2⟩ := H.hbnd b (hrest_mem b h)
      exact ⟨hb1, fun j hj => ⟨(hb2 j hj).1, le_trans (hb2 j hj).2 (Nat.le_succ _)⟩⟩
    · rw [List.mem_singleton] at h
      subst h
      constructor
      · intro i hi
        simp only [Option.mem_def, Option.some.injEq] at hi
        show 1 ≤ i ∧ i ≤ s.xi
        omega
      · intro j hj
        simp only [Option.mem_def, Option.some.injEq] at hj
        show 1 ≤ j ∧ j ≤ s.yi + 1
        omega
  · have hmono' := H.hmono
    rw [hout, List.pairwise_append] at hmono'
    refine pairwise_snoc hmono'.1 fun b hb => ?_
    obtain ⟨hb1, hb2⟩ := H.hbnd b (hrest_mem b hb)
    exact rowle_of_bounds (n := s.xi) (m := s.yi)
      (fun i hi => (hb1 i hi).2) (fun j hj => (hb2 j hj).2)
      (fun i hi => by
        simp only [Option.mem_def, Option.some.injEq] at hi
        omega)
      (fun j hj => by
        simp only [Option.mem_def, Option.some.injEq] at hj
        omega)
  · intro b hb
    rcases List.mem_append.mp hb with h | h
    · exact H.hsound b (hrest_mem b h)
    · rw [List.mem_singleton] at h
      subst h
      intro i hi j hj
      simp only [Option.mem_def, Option.some.injEq] at hi hj
      subst hi
      subst hj
      simpa using hs
  · intro _ _
    refine ⟨not_le.mp h1, Nat.succ_le_succ (Nat.zero_le _), ?_,
      rest, (some s.xi, some (s.yi + 1)), rfl, rfl⟩
    show |x.getD s.xi 0 - y.getD (s.yi + 1 - 1) 0| ≤ tol.getD s.xi 0
    simpa [curDiff] using htol
  · intro hip
    norm_num at hip

theorem OInv_step (H : OInv x y tol s)
    (hloop : s.xi < x.length ∨ s.yi < y.length) :
    OInv x y tol (outerStep x y tol s) := by
  by_cases h1 : x.length ≤ s.xi
  · have hy : s.yi < y.length := by
      rcases hloop with h | h
      · exact absurd h (not_lt.mpr h1)
      · exact h
    rw [outerStep_drainY x y tol s h1]
    exact OInv_drainY H h1 hy
  · by_cases h2 : y.length ≤ s.yi
    · rw [outerStep_drainX x y tol s h1 h2]
      exact OInv_drainX H h1 h2
    · by_cases htol : curDiff x y s.xi s.yi ≤ tol.getD s.xi 0
      · cases hb : (bltQI (lookX x y s.xi s.yi) (some (curDiff x y s.xi s.yi)) ||
            bltQI (lookY x y s.xi s.yi) (some (curDiff x y s.xi s.yi))) with
        | false =>
            rw [outerStep_accept x y tol s h1 h2 htol hb]
            exact OInv_accept H h1 h2 htol
        | true =>
            cases hxy : bltQI (lookX x y s.xi s.yi) (lookY x y s.xi s.yi) with
            | true =>
                by_cases hp : 0 < s.ipath
                · rw [outerStep_x66 x y tol s h1 h2 htol hb hxy hp]
                  exact OInv_x66 H h1 h2 htol hp
                · rw [outerStep_xPlain x y tol s h1 h2 htol hb hxy hp]
                  exact OInv_xPlain H h1 h2 htol
            | false =>
                by_cases hp : s.ipath < 0
                · rw [outerStep_y66 x y tol s h1 h2 htol hb hxy hp]
                  exact OInv_y66 H h1 h2 htol hp
                · rw [outerStep_yPlain x y tol s h1 h2 htol hb hxy hp]
                  exact OInv_yPlain H h1 h2 htol
      · by_cases hlt : x.getD s.xi 0 < y.getD s.yi 0
        · rw [outerStep_farX x y tol s h1 h2 htol hlt]
          exact OInv_farX H h1 h2
        · rw [outerStep_farY x y tol s h1 h2 htol hlt]
          exact OInv_farY H h1 h2

theorem OInv_stepG (H : OInv x y tol s) :
    OInv x y tol (outerStepG x y tol s) := by
  unfold outerStepG
  split
  · exact OInv_step H (by assumption)
  · exact H

end OuterInvPreservation

theorem OInv_init (x y tol : List ℚ) : OInv x y tol ⟨0, 0, 0, []⟩ := by
  refine ⟨Nat.zero_le _, Nat.zero_le _, le_refl _, ?_, ?_, List.Pairwise.nil, ?_, ?_, ?_⟩
  · intro h
    exact absurd rfl h
  · intro r hr
    simp at hr
  · intro r hr
    simp at hr
  · intro hip
    norm_num at hip
  · intro hip
    norm_num at hip

theorem OInv_run (x y tol : List ℚ) (k : ℕ) : OInv x y tol (outerRun x y tol k) := by
  induction k with
  | zero => exact OInv_init x y tol
  | succ k ih =>
      rw [outerRun, Function.iterate_succ_apply']
      exact OInv_stepG ih

theorem outerStep_advances (x y tol : List ℚ) (s : OuterState)
    (hloop : s.xi < x.length ∨ s.yi < y.length) :
    s.xi + s.yi < (outerStep x y tol s).xi + (outerStep x y tol s).yi := by
  by_cases h1 : x.length ≤ s.xi
  · rw [outerStep_drainY x y tol s h1]
    show s.xi + s.yi < s.xi + (s.yi + 1)
    omega
  · by_cases h2 : y.length ≤ s.yi
    · rw [outerStep_drainX x y tol s h1 h2]
      show s.xi + s.yi < s.xi + 1 + s.yi
      omega
    · by_cases htol : curDiff x y s.xi s.yi ≤ tol.getD s.xi 0
      · cases hb : (bltQI (lookX x y s.xi s.yi) (some (curDiff x y s.xi s.yi)) ||
            bltQI (lookY x y s.xi s.yi) (some (curDiff x y s.xi s.yi))) with
        | false =>
            rw [outerStep_accept x y tol s h1 h2 htol hb]
            show s.xi + s.yi < s.xi + 1 + (s.yi + 1)
            omega
        | true =>
            cases hxy : bltQI (lookX x y s.xi s.yi) (lookY x y s.xi s.yi) with
            | true =>
                by_cases hp : 0 < s.ipath
                · rw [outerStep_x66 x y tol s h1 h2 htol hb hxy hp]
                  show s.xi + s.yi < s.xi + 1 + s.yi
                  omega
                · rw [outerStep_xPlain x y tol s h1 h2 htol hb hxy hp]
                  show s.xi + s.yi < s.xi + 1 + s.yi
                  omega
            | false =>
                by_cases hp : s.ipath < 0
                · rw [outerStep_y66 x y tol s h1 h2 htol hb hxy hp]
                  show s.xi + s.yi < s.xi + (s.yi + 1)
                  omega
                · rw [outerStep_yPlain x y tol s h1 h2 htol hb hxy hp]
                  show s.xi + s.yi < s.xi + (s.yi + 1)
                  omega
      · by_cases hlt : x.getD s.xi 0 < y.getD s.yi 0
        · rw [outerStep_farX x y tol s h1 h2 htol hlt]
          show s.xi + s.yi < s.xi + 1 + s.yi
          omega
        · rw [outerStep_farY x y tol s h1 h2 htol hlt]
          show s.xi + s.yi < s.xi + (s.yi + 1)
          omega

theorem outerRun_succ (x y tol : List ℚ) (k : ℕ) :
    outerRun x y tol (k + 1) = outerStepG x y tol (outerRun x y tol k) :=
  Function.iterate_succ_apply' _ _ _

theorem outerRun_progress (x y tol : List ℚ) (k : ℕ) :
    ((outerRun x y tol k).xi = x.length ∧ (outerRun x y tol k).yi = y.length) ∨
      k ≤ (outerRun x y tol k).xi + (outerRun x y tol k).yi := by
  induction k with
  | zero => exact Or.inr (Nat.zero_le _)
  | succ k ih =>
      have hI := OInv_run x y tol k
      have hxb := hI.hxi
      have hyb := hI.hyi
      rw [outerRun_succ]
      by_cases hfin : (outerRun x y tol k).xi < x.length ∨
          (outerRun x y tol k).yi < y.length
      · have hG : outerStepG x y tol (outerRun x y tol k) =
            outerStep x y tol (outerRun x y tol k) := by
          unfold outerStepG
          rw [if_pos hfin]
        have hadv := outerStep_advances x y tol (outerRun x y tol k) hfin
        rw [hG]
        right
        rcases ih with ⟨hfx, hfy⟩ | hsum
        · omega
        · omega
      · have hG : outerStepG x y tol (outerRun x y tol k) = outerRun x y tol k := by
          unfold outerStepG
          rw [if_neg hfin]
        rw [hG]
        push_neg at hfin
        exact Or.inl ⟨le_antisymm hxb hfin.1, le_antisymm hyb hfin.2⟩

theorem outerRun_completes (x y tol : List ℚ) (k : ℕ)
    (hk : x.length + y.length ≤ k) :
    (outerRun x y tol k).xi = x.length ∧ (outerRun x y tol k).yi = y.length := by
  have hI := OInv_run x y tol k
  have hxb := hI.hxi
  have hyb := hI.hyi
  rcases outerRun_progress x y tol k with h | h
  · exact h
  · constructor <;> omega

section LeftInv

theorem getD_set_self {α : Type} {l : List α} {i : ℕ} {a d : α} (h : i < l.length) :
    (l.set i a).getD i d = a := by
  simp [List.getD_eq_getElem?_getD, List.getElem?_set_self h]

theorem getD_set_ne {α : Type} {l : List α} {i k : ℕ} {a d : α} (h : i ≠ k) :
    (l.set i a).getD k d = l.getD k d := by
  simp [List.getD_eq_getElem?_getD, List.getElem?_set_ne h]

theorem getD_replicate {α : Type} {n i : ℕ} {a : α} :
    (List.replicate n a).getD i a = a := by
  rcases lt_or_le i n with h | h
  · simp [List.getD_eq_getElem?_getD, List.getElem?_replicate_of_lt h]
  · simp [List.getD_eq_getElem?_getD, List.getElem?_replicate, not_lt.mpr h]

variable {x y tol : List ℚ}

theorem LBufProps_mono {fx ux yb fx' ux' yb' : ℕ} {buf : List Row}
    (h : LBufProps x y tol fx ux yb buf)
    (h1 : fx' ≤ fx) (h2 : ux ≤ ux') (h3 : yb ≤ yb') :
    LBufProps x y tol fx' ux' yb' buf := by
  obtain ⟨hl, hf, hu, hb, hs, hm⟩ := h
  refine ⟨hl, fun i hi => hf i (lt_of_lt_of_le hi h1),
    fun i hi => hu i (lt_of_le_of_lt h2 hi),
    fun i j hj => ⟨(hb i j hj).1, le_trans (hb i j hj).2 h3⟩, hs, hm⟩

theorem LBufProps_write_pair {xi yi : ℕ} {buf : List Row}
    (h : LBufProps x y tol xi xi (yi + 1) buf) (hxl : xi < x.length)
    (htol : curDiff x y xi yi ≤ tol.getD xi 0) :
    LBufProps x y tol (xi + 1) xi (yi + 1)
      (buf.set xi (some (xi + 1), some (yi + 1))) := by
  obtain ⟨hl, hf, hu, hb, hs, hm⟩ := h
  have hxb : xi < buf.length := by omega
  refine ⟨by simp [hl], ?_, ?_, ?_, ?_, ?_⟩
  · intro i hi
    rcases Nat.lt_or_ge i xi with h' | h'
    · rw [getD_set_ne (by omega)]
      exact hf i h'
    · have hieq : i = xi := by omega
      subst hieq
      rw [getD_set_self hxb]
  · intro i hi
    rw [getD_set_ne (by omega)]
    exact hu i hi
  · intro i j hj
    rcases eq_or_ne xi i with h' | h'
    · subst h'
      rw [getD_set_self hxb] at hj
      simp only [Option.mem_def, Option.some.injEq] at hj
      omega
    · rw [getD_set_ne h'] at hj
      exact hb i j hj
  · intro i j hj
    rcases eq_or_ne xi i with h' | h'
    · subst h'
      rw [getD_set_self hxb] at hj
      simp only [Option.mem_def, Option.some.injEq] at hj
      subst hj
      simpa [curDiff] using htol
    · rw [getD_set_ne h'] at hj
      exact hs i j hj
  · intro i1 i2 h12 j1 hj1 j2 hj2
    rcases eq_or_ne xi i2 with h2' | h2'
    · subst h2'
      rw [getD_set_ne (by omega)] at hj1
      rw [getD_set_self hxb] at hj2
      simp only [Option.mem_def, Option.some.injEq] at hj2
      have := (hb i1 j1 hj1).2
      omega
    · rcases eq_or_ne xi i1 with h1' | h1'
      · subst h1'
        rw [getD_set_ne h2'] at hj2
        rw [hu i2 (by omega)] at hj2
        simp at hj2
      · rw [getD_set_ne h1'] at hj1
        rw [getD_set_ne h2'] at hj2
        exact hm i1 i2 h12 j1 hj1 j2 hj2

theorem LBufProps_write_none {xi yb : ℕ} {buf : List Row}
    (h : LBufProps x y tol xi xi yb buf) (hxl : xi < x.length) :
    LBufProps x y tol (xi + 1) xi yb (buf.set xi (some (xi + 1), none)) := by
  obtain ⟨hl, hf, hu, hb, hs, hm⟩ := h
  have hxb : xi < buf.length := by omega
  refine ⟨by simp [hl], ?_, ?_, ?_, ?_, ?_⟩
  · intro i hi
    rcases Nat.lt_or_ge i xi with h' | h'
    · rw [getD_set_ne (by omega)]
      exact hf i h'
    · have hieq : i = xi := by omega
      subst hieq
      rw [getD_set_self hxb]
  · intro i hi
    rw [getD_set_ne (by omega)]
    exact hu i hi
  · intro i j hj
    rcases eq_or_ne xi i with h' | h'
    · subst h'
      rw [getD_set_self hxb] at hj
      simp at hj
    · rw [getD_set_ne h'] at hj
      exact hb i j hj
  · intro i j hj
    rcases eq_or_ne xi i with h' | h'
    · subst h'
      rw [getD_set_self hxb] at hj
      simp at hj
    · rw [getD_set_ne h'] at hj
      exact hs i j hj
  · intro i1 i2 h12 j1 hj1 j2 hj2
    rcases eq_or_ne xi i2 with h2' | h2'
    · subst h2'
      rw [getD_set_self hxb] at hj2
      simp at hj2
    · rcases eq_or_ne xi i1 with h1' | h1'
      · subst h1'
        rw [getD_set_self hxb] at hj1
        simp at hj1
      · rw [getD_set_ne h1'] at hj1
        rw [getD_set_ne h2'] at hj2
        exact hm i1 i2 h12 j1 hj1 j2 hj2

theorem LBufProps_retract {fx ux yb xl : ℕ} {buf : List Row}
    (h : LBufProps x y tol fx ux yb buf) :
    LBufProps x y tol fx ux yb
      (buf.set xl ((buf.getD xl (none, none)).1, none)) := by
  obtain ⟨hl, hf, hu, hb, hs, hm⟩ := h
  rcases Nat.lt_or_ge xl buf.length with hxb | hxb
  · refine ⟨by simp [hl], ?_, ?_, ?_, ?_, ?_⟩
    · intro i hi
      rcases eq_or_ne xl i with h' | h'
      · subst h'
        rw [getD_set_self hxb]
        exact hf xl hi
      · rw [getD_set_ne h']
        exact hf i hi
    · intro i hi
      rcases eq_or_ne xl i with h' | h'
      · subst h'
        rw [getD_set_self hxb, hu xl hi]
      · rw [getD_set_ne h']
        exact hu i hi
    · intro i j hj
      rcases eq_or_ne xl i with h' | h'
      · subst h'
        rw [getD_set_self hxb] at hj
        simp at hj
      · rw [getD_set_ne h'] at hj
        exact hb i j hj
    · intro i j hj
      rcases eq_or_ne xl i with h' | h'
      · subst h'
        rw [getD_set_self hxb] at hj
        simp at hj
      · rw [getD_set_ne h'] at hj
        exact hs i j hj
    · intro i1 i2 h12 j1 hj1 j2 hj2
      rcases eq_or_ne xl i1 with h1' | h1'
      · subst h1'
        rw [getD_set_self hxb] at hj1
        simp at hj1
      · rcases eq_or_ne xl i2 with h2' | h2'
        · subst h2'
          rw [getD_set_self hxb] at hj2
          simp at hj2
        · rw [getD_set_ne h1'] at hj1
          rw [getD_set_ne h2'] at hj2
          exact hm i1 i2 h12 j1 hj1 j2 hj2
  · rw [List.set_eq_of_length_le hxb]
    exact ⟨hl, hf, hu, hb, hs, hm⟩

theorem leftBufUpdate_props {s : LeftState}
    (H : LInv x y tol s) (hxl : s.xi < x.length) :
    LBufProps x y tol (s.xi + 1) s.xi (s.yi + 1) (leftBufUpdate x y tol s) := by
  unfold leftBufUpdate
  split
  · have hbase := LBufProps_write_pair H.hbuf hxl (by assumption)
    cases s.lastUsed with
    | none => exact hbase
    | some p =>
        obtain ⟨xl, yl⟩ := p
        dsimp only
        by_cases hg : s.yi = yl ∧ xl < s.xi
        · rw [if_pos hg]
          by_cases hc : (bltQI (some (curDiff x y s.xi s.yi)) (lookY x y s.xi s.yi) ||
              bltQI (lookX x y s.xi s.yi) (lookY x y s.xi s.yi)) = true
          · rw [if_pos hc]
            exact LBufProps_retract hbase
          · rw [if_neg hc]
            exact hbase
        · rw [if_neg hg]
          exact hbase
  · exact LBufProps_write_none H.hbuf hxl

theorem leftAdvance_bounds (x y : List ℚ) (xi yi : ℕ) :
    (xi ≤ (leftAdvance x y xi yi).1 ∧ (leftAdvance x y xi yi).1 ≤ xi + 1) ∧
      yi ≤ (leftAdvance x y xi yi).2 ∧ (leftAdvance x y xi yi).2 ≤ yi + 1 := by
  unfold leftAdvance
  split
  · split
    · exact ⟨⟨Nat.le_succ _, le_refl _⟩, le_refl _, Nat.le_succ _⟩
    · exact ⟨⟨le_refl _, Nat.le_succ _⟩, Nat.le_succ _, le_refl _⟩
  · exact ⟨⟨Nat.le_succ _, le_refl _⟩, Nat.le_succ _, le_refl _⟩

theorem leftAdvance_advances (x y : List ℚ) (xi yi : ℕ) :
    xi + yi < (leftAdvance x y xi yi).1 + (leftAdvance x y xi yi).2 := by
  unfold leftAdvance
  split
  · split
    · show xi + yi < xi + 1 + yi
      omega
    · show xi + yi < xi + (yi + 1)
      omega
  · show xi + yi < xi + 1 + (yi + 1)
    omega

theorem LInv_step {s : LeftState} (H : LInv x y tol s) (hxl : s.xi < x.length) :
    LInv x y tol (leftStep x y tol s) := by
  unfold leftStep
  by_cases hyl : s.yi < y.length
  · rw [if_pos hyl]
    have hadv := leftAdvance_bounds x y s.xi s.yi
    have hprops := leftBufUpdate_props H hxl
    refine ⟨?_, ?_, ?_⟩
    · show (leftAdvance x y s.xi s.yi).1 ≤ x.length
      omega
    · show (leftAdvance x y s.xi s.yi).2 ≤ y.length
      omega
    · show LBufProps x y tol (leftAdvance x y s.xi s.yi).1
        (leftAdvance x y s.xi s.yi).1 ((leftAdvance x y s.xi s.yi).2 + 1)
        (leftBufUpdate x y tol s)
      exact LBufProps_mono hprops (by omega) (by omega) (by omega)
  · rw [if_neg hyl]
    refine ⟨hxl, H.hyi, ?_⟩
    exact LBufProps_mono (LBufProps_write_none H.hbuf hxl)
      (le_refl _) (Nat.le_succ _) (le_refl _)

theorem LInv_stepG {s : LeftState} (H : LInv x y tol s) :
    LInv x y tol (leftStepG x y tol s) := by
  unfold leftStepG
  split
  · exact LInv_step H (by assumption)
  · exact H

theorem LInv_init (x y tol : List ℚ) :
    LInv x y tol ⟨0, 0, none, List.replicate x.length (none, none)⟩ := by
  refine ⟨Nat.zero_le _, Nat.zero_le _, by simp, ?_, ?_, ?_, ?_, ?_⟩
  · intro i hi
    exact absurd hi (Nat.not_lt_zero i)
  · intro i _
    exact getD_replicate
  · intro i j hj
    rw [getD_replicate] at hj
    simp at hj
  · intro i j hj
    rw [getD_replicate] at hj
    simp at hj
  · intro i1 i2 _ j1 hj1
    rw [getD_replicate] at hj1
    simp at hj1

theorem LInv_run (x y tol : List ℚ) (k : ℕ) : LInv x y tol (leftRun x y tol k) := by
  induction k with
  | zero => exact LInv_init x y tol
  | succ k ih =>
      rw [leftRun, Function.iterate_succ_apply']
      exact LInv_stepG ih

theorem leftRun_succ (x y tol : List ℚ) (k : ℕ) :
    leftRun x y tol (k + 1) = leftStepG x y tol (leftRun x y tol k) :=
  Function.iterate_succ_apply' _ _ _

theorem leftStep_advances (x y tol : List ℚ) (s : LeftState) :
    s.xi + s.yi < (leftStep x y tol s).xi + (leftStep x y tol s).yi := by
  unfold leftStep
  by_cases hyl : s.yi < y.length
  · rw [if_pos hyl]
    exact leftAdvance_advances x y s.xi s.yi
  · rw [if_neg hyl]
    show s.xi + s.yi < s.xi + 1 + s.yi
    omega

theorem leftRun_progress (x y tol : List ℚ) (k : ℕ) :
    (leftRun x y tol k).xi = x.length ∨
      k ≤ (leftRun x y tol k).xi + (leftRun x y tol k).yi := by
  induction k with
  | zero => exact Or.inr (Nat.zero_le _)
  | succ k ih =>
      have hI := LInv_run x y tol k
      have hxb := hI.hxi
      rw [leftRun_succ]
      by_cases hfin : (leftRun x y tol k).xi < x.length
      · have hG : leftStepG x y tol (leftRun x y tol k) =
            leftStep x y tol (leftRun x y tol k) := by
          unfold leftStepG
          rw [if_pos hfin]
        have hadv := leftStep_advances x y tol (leftRun x y tol k)
        rw [hG]
        right
        rcases ih with hfx | hsum
        · omega
        · omega
      · have hG : leftStepG x y tol (leftRun x y tol k) = leftRun x y tol k := by
          unfold leftStepG
          rw [if_neg hfin]
        rw [hG]
        exact Or.inl (le_antisymm hxb (not_lt.mp hfin))

theorem leftRun_completes (x y tol : List ℚ) (k : ℕ)
    (hk : x.length + y.length ≤ k) :
    (leftRun x y tol k).xi = x.length := by
  have hI := LInv_run x y tol k
  have hxb := hI.hxi
  have hyb := hI.hyi
  rcases leftRun_progress x y tol k with h | h
  · exact h
  · omega

end LeftInv

section ResolverLemmas

theorem getD_eq_getElem {α : Type} {l : List α} {i : ℕ} {d : α} (h : i < l.length) :
    l.getD i d = l[i] := by
  simp [List.getD_eq_getElem?_getD, List.getElem?_eq_getElem h]

theorem getD_cons_succ' {α : Type} {v : α} {l : List α} {i : ℕ} {d : α} :
    (v :: l).getD (i + 1) d = l.getD i d := rfl

theorem sorted_getD {l : List ℚ} (hl : List.Sorted (· ≤ ·) l) {a b : ℕ}
    (hab : a < b) (hb : b < l.length) : l.getD a 0 ≤ l.getD b 0 := by
  rw [getD_eq_getElem (lt_trans hab hb), getD_eq_getElem hb]
  exact List.pairwise_iff_getElem.mp hl a b (lt_trans hab hb) hb hab

theorem bestIdx_none {c : ℚ} {y : List ℚ} (h : bestIdx c y = none) : y = [] := by
  cases y with
  | nil => rfl
  | cons v rest =>
      unfold bestIdx at h
      cases hb : bestIdx c rest with
      | none =>
          rw [hb] at h
          dsimp only at h
          cases h
      | some p =>
          obtain ⟨j, d⟩ := p
          rw [hb] at h
          dsimp only at h
          split at h <;> cases h

theorem bestIdx_spec {c : ℚ} : ∀ {y : List ℚ} {j : ℕ} {d : ℚ},
    bestIdx c y = some (j, d) →
    j < y.length ∧ d = |c - y.getD j 0| ∧
      (∀ k < y.length, d ≤ |c - y.getD k 0|) ∧
      ∀ k < j, d < |c - y.getD k 0| := by
  intro y
  induction y with
  | nil => intro j d h; cases h
  | cons v rest ih =>
      intro j d h
      unfold bestIdx at h
      cases hb : bestIdx c rest with
      | none =>
          rw [hb] at h
          dsimp only at h
          simp only [Option.some.injEq, Prod.mk.injEq] at h
          obtain ⟨hj, hd⟩ := h
          subst hj
          subst hd
          have hrest := bestIdx_none hb
          subst hrest
          refine ⟨by simp, rfl, ?_, ?_⟩
          · intro k hk
            cases k with
            | zero => exact le_refl _
            | succ k => exact absurd hk (by simp)
          · intro k hk
            exact absurd hk (Nat.not_lt_zero k)
      | some p =>
          obtain ⟨j', d'⟩ := p
          rw [hb] at h
          dsimp only at h
          obtain ⟨hjl, hdd, hmin, hfirst⟩ := ih hb
          by_cases hlt : d' < |c - v|
          · rw [if_pos hlt] at h
            simp only [Option.some.injEq, Prod.mk.injEq] at h
            obtain ⟨hj, hd⟩ := h
            subst hj
            subst hd
            refine ⟨by simpa using Nat.succ_lt_succ hjl, ?_, ?_, ?_⟩
            · rw [getD_cons_succ']
              exact hdd
            · intro k hk
              cases k with
              | zero => exact le_of_lt hlt
              | succ k =>
                  rw [getD_cons_succ']
                  exact hmin k (by simpa using hk)
            · intro k hk
              cases k with
              | zero => exact hlt
              | succ k =>
                  rw [getD_cons_succ']
                  exact hfirst k (by omega)
          · rw [if_neg hlt] at h
            simp only [Option.some.injEq, Prod.mk.injEq] at h
            obtain ⟨hj, hd⟩ := h
            subst hj
            subst hd
            refine ⟨Nat.succ_pos _, rfl, ?_, ?_⟩
            · intro k hk
              cases k with
              | zero => exact le_refl _
              | succ k =>
                  rw [getD_cons_succ']
                  have h1 := hmin k (by simpa using hk)
                  have h2 : |c - v| ≤ d' := not_lt.mp hlt
                  linarith
            · intro k hk
              exact absurd hk (Nat.not_lt_zero k)

theorem abs_near_mono {u v c c' : ℚ} (huv : u ≤ v) (hcc : c ≤ c')
    (h : |c - v| < |c - u|) : |c' - v| < |c' - u| := by
  rcases abs_cases (c - v) with ⟨e1, s1⟩ | ⟨e1, s1⟩ <;>
    rcases abs_cases (c - u) with ⟨e2, s2⟩ | ⟨e2, s2⟩ <;>
    rcases abs_cases (c' - v) with ⟨e3, s3⟩ | ⟨e3, s3⟩ <;>
    rcases abs_cases (c' - u) with ⟨e4, s4⟩ | ⟨e4, s4⟩ <;>
    rw [e1, e2] at h <;> rw [e3, e4] <;> linarith

theorem bestIdx_mono {y : List ℚ} (hy : List.Sorted (· ≤ ·) y) {c c' : ℚ}
    (hcc : c ≤ c') {j j' : ℕ} {d d' : ℚ}
    (h1 : bestIdx c y = some (j, d)) (h2 : bestIdx c' y = some (j', d')) :
    j ≤ j' := by
  by_contra hcon
  push_neg at hcon
  obtain ⟨hjlen, hd, _, hfirst⟩ := bestIdx_spec h1
  obtain ⟨_, hd', hmin', _⟩ := bestIdx_spec h2
  have hyy : y.getD j' 0 ≤ y.getD j 0 := sorted_getD hy hcon hjlen
  have h3 : |c - y.getD j 0| < |c - y.getD j' 0| := hd ▸ hfirst j' hcon
  have h4 := abs_near_mono hyy hcc h3
  have h5 : |c' - y.getD j' 0| ≤ |c' - y.getD j 0| := hd' ▸ hmin' j hjlen
  linarith

theorem stage1_eq_some {x y tol : List ℚ} {i j : ℕ}
    (h : stage1 x y tol i = some j) :
    ∃ d, bestIdx (x.getD i 0) y = some (j, d) ∧ d ≤ tol.getD i 0 := by
  unfold stage1 at h
  cases hb : bestIdx (x.getD i 0) y with
  | none =>
      rw [hb] at h
      dsimp only at h
      cases h
  | some p =>
      obtain ⟨j', d⟩ := p
      rw [hb] at h
      dsimp only at h
      by_cases hd : d ≤ tol.getD i 0
      · rw [if_pos hd] at h
        simp only [Option.some.injEq] at h
        subst h
        exact ⟨d, rfl, hd⟩
      · rw [if_neg hd] at h
        cases h

theorem stage1_sound {x y tol : List ℚ} {i j : ℕ}
    (h : stage1 x y tol i = some j) :
    j < y.length ∧ |x.getD i 0 - y.getD j 0| ≤ tol.getD i 0 := by
  obtain ⟨d, hb, hd⟩ := stage1_eq_some h
  obtain ⟨hjl, hdd, _, _⟩ := bestIdx_spec hb
  exact ⟨hjl, hdd ▸ hd⟩

theorem stage1_mono {x y tol : List ℚ} (hx : List.Sorted (· ≤ ·) x)
    (hy : List.Sorted (· ≤ ·) y) {i1 i2 j1 j2 : ℕ}
    (hlt : i1 < i2) (hi2 : i2 < x.length)
    (h1 : stage1 x y tol i1 = some j1) (h2 : stage1 x y tol i2 = some j2) :
    j1 ≤ j2 := by
  obtain ⟨d1, hb1, _⟩ := stage1_eq_some h1
  obtain ⟨d2, hb2, _⟩ := stage1_eq_some h2
  exact bestIdx_mono hy (sorted_getD hx hlt hi2) hb1 hb2

theorem resolverVal_ne {x y tol : List ℚ} {nm : ℤ} {i : ℕ}
    (h : resolverVal x y tol nm i ≠ nm) :
    ∃ j, stage1 x y tol i = some j ∧ resolverVal x y tol nm i = (j : ℤ) + 1 := by
  unfold resolverVal at h ⊢
  cases hs : stage1 x y tol i with
  | none =>
      rw [hs] at h
      dsimp only at h
      exact absurd rfl h
  | some j =>
      rw [hs] at h
      dsimp only at h
      by_cases ha : ((List.range x.length).any fun i2 =>
          decide (i2 ≠ i) && (stage1 x y tol i2 == some j) && beats x y j i2 i) = true
      · rw [if_pos ha] at h
        exact absurd rfl h
      · dsimp only
        rw [if_neg ha]
        exact ⟨j, rfl, rfl⟩

theorem resolverOut_length (x y tol : List ℚ) (nm : ℤ) :
    (resolverOut x y tol nm).length = x.length := by
  simp [resolverOut]

theorem resolverOut_getD {x y tol : List ℚ} {nm : ℤ} {i : ℕ} (hi : i < x.length) :
    (resolverOut x y tol nm).getD i 0 = resolverVal x y tol nm i := by
  rw [resolverOut, getD_eq_getElem (by simpa using hi)]
  simp

theorem resolverOut_pairwise (x y tol : List ℚ) (hx : List.Sorted (· ≤ ·) x)
    (hy : List.Sorted (· ≤ ·) y) (nm : ℤ) :
    (resolverOut x y tol nm).Pairwise fun v1 v2 => v1 ≠ nm → v2 ≠ nm → v1 ≤ v2 := by
  unfold resolverOut
  rw [List.pairwise_map]
  refine List.Pairwise.imp_of_mem ?_ (List.pairwise_lt_range x.length)
  intro i1 i2 h1 h2 hlt hv1 hv2
  obtain ⟨j1, hs1, he1⟩ := resolverVal_ne hv1
  obtain ⟨j2, hs2, he2⟩ := resolverVal_ne hv2
  rw [he1, he2]
  have hj := stage1_mono hx hy hlt (List.mem_range.mp h2) hs1 hs2
  omega

theorem left2Rows_mem {ry : List ℤ} {b : ℕ × ℤ} :
    ∀ {k}, b ∈ left2Rows ry k →
      ∃ i, i < ry.length ∧ b.1 = k + i + 1 ∧ b.2 = ry.getD i 0 := by
  induction ry with
  | nil =>
      intro k h
      simp [left2Rows] at h
  | cons v rest ih =>
      intro k h
      unfold left2Rows at h
      rcases List.mem_cons.mp h with h | h
      · subst h
        exact ⟨0, by simp, by omega, rfl⟩
      · obtain ⟨i, hi, h1, h2⟩ := ih h
        exact ⟨i + 1, by simpa using Nat.succ_lt_succ hi, by omega,
          by rw [getD_cons_succ']; exact h2⟩

theorem left2Rows_pairwise {ry : List ℤ} {Q : ℤ → ℤ → Prop} (h : ry.Pairwise Q) :
    ∀ k, (left2Rows ry k).Pairwise fun a b => a.1 < b.1 ∧ Q a.2 b.2 := by
  induction ry with
  | nil =>
      intro k
      exact List.Pairwise.nil
  | cons v rest ih =>
      intro k
      rw [List.pairwise_cons] at h
      unfold left2Rows
      rw [List.pairwise_cons]
      refine ⟨?_, ih h.2 (k + 1)⟩
      intro b hb
      obtain ⟨i, hi, h1, h2⟩ := left2Rows_mem hb
      constructor
      · omega
      · rw [h2]
        refine h.1 _ ?_
        rw [getD_eq_getElem hi]
        exact List.getElem_mem hi

theorem inner2Rows_mem {ry : List ℤ} {nm : ℤ} {p : ℕ × ℤ} :
    ∀ {k}, p ∈ inner2Rows ry nm k →
      ∃ i, i < ry.length ∧ p.1 = k + i + 1 ∧ p.2 = ry.getD i 0 ∧ p.2 ≠ nm := by
  intro k h
  rw [inner2Rows_eq_filter] at h
  have hmem := List.mem_of_mem_filter h
  have hpred := List.of_mem_filter h
  obtain ⟨i, hi, h1, h2⟩ := left2Rows_mem hmem
  refine ⟨i, hi, h1, h2, ?_⟩
  simpa using hpred

end ResolverLemmas

/-! ## Claim theorems -/

/-- C6: on `left = [1.0, 1.9, 3.0]`, `right = [0.9, 2.0, 3.1]`,
`tolerance = 0.3` per element, the outer join emits exactly 3 rows, each a
full pairing with both columns non-sentinel, and no additional unmatched
rows. -/
theorem c6_outer_chain_three_pairs :
    joinOuter [1, 19/10, 3] [9/10, 2, 31/10] [3/10, 3/10, 3/10] =
      some [(some 1, some 1), (some 2, some 2), (some 3, some 3)] := by
  decide

/-- C5 fails on the code: on the sorted input `x = [0, 1.5, 2]`,
`y = [1, 1.9]`, `tolerance = [1, 0.5, 0.5]`, the outer join emits only the
rows `(2, 1)` and `(3, 2)`; the element `x[1]` (1-based index 1) appears in
no output row at all, because two consecutive issue-#66 corrections in
opposite directions overwrite the row that contained it. -/
theorem c5_outer_drops_an_element :
    joinOuter [0, 3/2, 2] [1, 19/10] [1, 1/2, 1/2] =
      some [(some 2, some 1), (some 3, some 2)] ∧
    ∀ r ∈ (joinOuter [0, 3/2, 2] [1, 19/10] [1, 1/2, 1/2]).getD [],
      r.1 ≠ some 1 := by
  decide

/-- C7 fails on the code: on the sorted input `x = [0, 1]`,
`y = [0.75, 1.25]`, `tolerance = [2, 2]`, the direct scan `C_join_left`
keeps right index 1 for BOTH rows: at `xi = 1`, `yi = 0` the retraction
guard `ydiff > idiff || ydiff > xdiff` does not fire on the exact tie
`ydiff = idiff` (`|1 - 1.25| = |1 - 0.75| = 0.25`), while the
resolver-based `C_join_left2` assigns right index 1 only to the second
left element. The two y columns disagree. Every number involved (0, 1,
0.75, 1.25, 2) is a dyadic rational exactly representable as an IEEE-754
double, and each subtraction is exact in double precision (the results
0.25, 0.75, 1.25 are again dyadic with short mantissas), so the tie, the
missed retraction and the divergence occur identically in the compiled C
program. -/
theorem c7_left_scan_vs_resolver :
    joinLeft [0, 1] [3/4, 5/4] [2, 2] =
      some [(some 1, some 1), (some 2, some 1)] ∧
    joinLeft2 [0, 1] [3/4, 5/4] [2, 2] (-1) =
      some [(1, -1), (2, 1)] ∧
    (List.map (fun r => r.2)
        [((some 1 : Option ℕ), (some 1 : Option ℕ)), (some 2, some 1)]) ≠
      List.map (fun r => if r.2 = (-1 : ℤ) then none else some r.2.toNat)
        [((1 : ℕ), (-1 : ℤ)), (2, 1)] := by
  decide

/-- C1 fails as stated. Take `x = [0, 1]`, `y = [0.9, 1.05]`,
`tolerance = [1, 1]`; after one step the scan is in the reachable state
`xi = 1`, `yi = 0`, `i_path = -1` (the previous step advanced `x`), with
one row `(1, NA)` emitted, and the current pair is within tolerance with
the `y` look-ahead strictly better. The direction of improvement (`y`)
DIFFERS from the previous step's direction (`x`), so by the claim the
exception does not apply and a fresh unmatched row must be emitted
(output grows to 2 rows). The code instead fires the issue-#66 correction:
it decrements the output index and converts the previous row into the full
pairing `(1, 1)`, leaving a single row. (The emitted-side half of the
claim fails on the same input: at the first step, with neutral `i_path`,
the code emits the advanced `x` side's element `(1, NA)`, not the other
side's `(NA, 1)`.) -/
theorem c1_counterexample : ¬ClaimC1Prop := by
  intro h
  have h1 := (h [0, 1] [9/10, 21/20] [1, 1] ⟨1, 0, -1, [(some 1, none)]⟩
    (by decide) (by decide) (by decide) (by decide)).2 (by decide)
  exact absurd (h1.2.2.2 (by decide)) (by decide)

/-- C2 fails as stated: on `x = [0, 10]`, `y = [10]`, `tolerance = [0, 0]`,
`nomatch = -1`, the left join rows are `(1, -1), (2, 1)`; the inner join
emits `(2, 1)` — the surviving left-column entry keeps its original index
2 and is NOT renumbered to 1 as the claim demands. -/
theorem c2_counterexample : ¬ClaimC2Prop := by
  intro h
  exact absurd (h [0, 10] [10] [0, 0] (-1)) (by decide)

/-- C4 fails as stated: `C_join_outer2` performs no tolerance-length
validation at all. On `x = [1]`, `y = []` with the non-scalar tolerance
`[1, 2]` of mismatched length, it silently returns the row `(1, nomatch)`
instead of failing with a usage error. -/
theorem c4_counterexample : ¬ClaimC4Prop := by
  intro h
  have h1 := (h [1] [] [1, 2] (-1)).1 (by decide) (by decide)
  exact absurd h1.2.2.1 (by decide)

/-- C3: tolerance soundness for all three join operations: every output
row whose two columns are both non-sentinel pairs elements within the
tolerance indexed by the row's own left index — for the outer join
including the rows produced by the retroactive issue-#66 correction, for
the left join including rows later partially retracted, and for the inner
join via the duplicate resolver. -/
theorem c3_tolerance_soundness (x y tol : List ℚ) (nm : ℤ)
    (hx : List.Sorted (· ≤ ·) x) (hy : List.Sorted (· ≤ ·) y)
    (hlen : tol.length = x.length) (htol : ∀ t ∈ tol, 0 ≤ t) :
    (∀ out, joinOuter x y tol = some out → ∀ r ∈ out, ∀ i ∈ r.1, ∀ j ∈ r.2,
      |x.getD (i - 1) 0 - y.getD (j - 1) 0| ≤ tol.getD (i - 1) 0) ∧
    (∀ buf, joinLeft x y tol = some buf → ∀ r ∈ buf, ∀ i ∈ r.1, ∀ j ∈ r.2,
      |x.getD (i - 1) 0 - y.getD (j - 1) 0| ≤ tol.getD (i - 1) 0) ∧
    (∀ rows, joinInner2 x y tol nm = some rows → ∀ p ∈ rows,
      |x.getD (p.1 - 1) 0 - y.getD (p.2.toNat - 1) 0| ≤ tol.getD (p.1 - 1) 0) := by
  refine ⟨?_, ?_, ?_⟩
  · intro out hout
    unfold joinOuter at hout
    rw [if_pos hlen.symm] at hout
    simp only [Option.some.injEq] at hout
    subst hout
    exact (OInv_run x y tol (x.length + y.length)).hsound
  · intro buf hbuf r hr i hi j hj
    unfold joinLeft at hbuf
    rw [if_pos hlen.symm] at hbuf
    simp only [Option.some.injEq] at hbuf
    subst hbuf
    have H := LInv_run x y tol (x.length + y.length)
    have hfin := leftRun_completes x y tol (x.length + y.length) (le_refl _)
    obtain ⟨hl, hf, hu, hb, hsnd, hm⟩ := H.hbuf
    obtain ⟨p, hp, hpe⟩ := List.getElem_of_mem hr
    have hD : ((leftRun x y tol (x.length + y.length)).buf).getD p (none, none) = r := by
      rw [getD_eq_getElem hp, hpe]
    have hfill := hf p (by rw [hfin]; omega)
    rw [hD] at hfill
    rw [Option.mem_def, hfill] at hi
    simp only [Option.some.injEq] at hi
    have hs2 := hsnd p j (by rw [hD]; exact hj)
    rw [← hi]
    simpa using hs2
  · intro rows hrows p hp
    unfold joinInner2 closestDupClosest at hrows
    rw [if_pos hlen] at hrows
    simp only [Option.map_some', Option.some.injEq] at hrows
    subst hrows
    obtain ⟨i, hi, h1, h2, h3⟩ := inner2Rows_mem hp
    rw [resolverOut_length] at hi
    have hv : p.2 = resolverVal x y tol nm i := by
      rw [h2, resolverOut_getD hi]
    have hne : resolverVal x y tol nm i ≠ nm := hv ▸ h3
    obtain ⟨j, hsj, hej⟩ := resolverVal_ne hne
    obtain ⟨hjl, hsound⟩ := stage1_sound hsj
    have hp1 : p.1 - 1 = i := by omega
    have hp2 : p.2.toNat - 1 = j := by
      rw [hv, hej]
      omega
    rw [hp1, hp2]
    exact hsound

/-- C3 instantiated on a concrete run: the single matched pair of the
outer join on `x = [0]`, `y = [0]`, `tolerance = [0]` respects its
tolerance bound. -/
theorem c3_witness :
    |([(0 : ℚ)].getD 0 0) - ([(0 : ℚ)].getD 0 0)| ≤ [(0 : ℚ)].getD 0 0 :=
  (c3_tolerance_soundness [0] [0] [0] (-1) (by decide) (by decide) rfl
      (by decide)).1
    [((some 1 : Option ℕ), (some 1 : Option ℕ))] (by decide)
    ((some 1 : Option ℕ), (some 1 : Option ℕ)) (by decide) 1 (by decide) 1 (by decide)

/-- C9: for sorted inputs, the non-sentinel entries of both output index
columns are non-decreasing, for the outer join, the direct left join, and
the resolver-based inner join. -/
theorem c9_columns_sorted (x y tol : List ℚ) (nm : ℤ)
    (hx : List.Sorted (· ≤ ·) x) (hy : List.Sorted (· ≤ ·) y)
    (hlen : tol.length = x.length) (htol : ∀ t ∈ tol, 0 ≤ t) :
    (∀ out, joinOuter x y tol = some out →
      List.Sorted (· ≤ ·) (out.filterMap fun r => r.1) ∧
      List.Sorted (· ≤ ·) (out.filterMap fun r => r.2)) ∧
    (∀ buf, joinLeft x y tol = some buf →
      List.Sorted (· ≤ ·) (buf.filterMap fun r => r.1) ∧
      List.Sorted (· ≤ ·) (buf.filterMap fun r => r.2)) ∧
    (∀ rows, joinInner2 x y tol nm = some rows →
      List.Sorted (· ≤ ·) (rows.map fun p => p.1) ∧
      List.Sorted (· ≤ ·) (rows.map fun p => p.2)) := by
  refine ⟨?_, ?_, ?_⟩
  · intro out hout
    unfold joinOuter at hout
    rw [if_pos hlen.symm] at hout
    simp only [Option.some.injEq] at hout
    subst hout
    have hPW := (OInv_run x y tol (x.length + y.length)).hmono
    constructor
    · exact List.pairwise_filterMap.mpr (hPW.imp fun h => h.1)
    · exact List.pairwise_filterMap.mpr (hPW.imp fun h => h.2)
  · intro buf hbuf
    unfold joinLeft at hbuf
    rw [if_pos hlen.symm] at hbuf
    simp only [Option.some.injEq] at hbuf
    subst hbuf
    have H := LInv_run x y tol (x.length + y.length)
    have hfin := leftRun_completes x y tol (x.length + y.length) (le_refl _)
    obtain ⟨hl, hf, hu, hb, hsnd, hm⟩ := H.hbuf
    have hPW : ((leftRun x y tol (x.length + y.length)).buf).Pairwise RowLE := by
      rw [List.pairwise_iff_getElem]
      intro p1 p2 hp1 hp2 hlt
      constructor
      · intro i1 hi1 i2 hi2
        have e1 := hf p1 (by rw [hfin]; omega)
        have e2 := hf p2 (by rw [hfin]; omega)
        rw [getD_eq_getElem hp1] at e1
        rw [getD_eq_getElem hp2] at e2
        rw [Option.mem_def, e1] at hi1
        rw [Option.mem_def, e2] at hi2
        simp only [Option.some.injEq] at hi1 hi2
        omega
      · intro j1 hj1 j2 hj2
        exact hm p1 p2 hlt j1 (by rw [getD_eq_getElem hp1]; exact hj1)
          j2 (by rw [getD_eq_getElem hp2]; exact hj2)
    constructor
    · exact List.pairwise_filterMap.mpr (hPW.imp fun h => h.1)
    · exact List.pairwise_filterMap.mpr (hPW.imp fun h => h.2)
  · intro rows hrows
    unfold joinInner2 closestDupClosest at hrows
    rw [if_pos hlen] at hrows
    simp only [Option.map_some', Option.some.injEq] at hrows
    subst hrows
    have base := left2Rows_pairwise (resolverOut_pairwise x y tol hx hy nm) 0
    rw [inner2Rows_eq_filter]
    have hfil := List.Pairwise.filter (fun r => !(r.2 == nm)) base
    constructor
    · exact List.pairwise_map.mpr (hfil.imp fun h => le_of_lt h.1)
    · refine List.pairwise_map.mpr (List.Pairwise.imp_of_mem ?_ hfil)
      intro a b ha hb hq
      have ha2 : a.2 ≠ nm := by simpa using List.of_mem_filter ha
      have hb2 : b.2 ≠ nm := by simpa using List.of_mem_filter hb
      exact hq.2 ha2 hb2

/-- C9 instantiated on a concrete run: the left-index column of the outer
join on `x = [0]`, `y = [0]`, `tolerance = [0]`. -/
theorem c9_witness :
    List.Sorted (· ≤ ·)
      ([((some 1 : Option ℕ), (some 1 : Option ℕ))].filterMap fun r => r.1) :=
  ((c9_columns_sorted [0] [0] [0] (-1) (by decide) (by decide) rfl
      (by decide)).1
    [((some 1 : Option ℕ), (some 1 : Option ℕ))] (by decide)).1

/-- C8: every row of the inner join appears, with the same index pairing,
as a row of the resolver-based left join on the same well-formed input. -/
theorem c8_inner_rows_in_left (x y tol : List ℚ) (nm : ℤ)
    (hx : List.Sorted (· ≤ ·) x) (hy : List.Sorted (· ≤ ·) y)
    (hlen : tol.length = x.length) (htol : ∀ t ∈ tol, 0 ≤ t)
    (ri rl : List (ℕ × ℤ))
    (hi : joinInner2 x y tol nm = some ri)
    (hl : joinLeft2 x y tol nm = some rl) :
    ∀ p ∈ ri, p ∈ rl := by
  intro p hp
  unfold joinInner2 at hi
  unfold joinLeft2 at hl
  cases hc : closestDupClosest x y tol nm with
  | none =>
      rw [hc] at hi
      cases hi
  | some ry =>
      rw [hc] at hi hl
      simp only [Option.map_some', Option.some.injEq] at hi hl
      subst hi
      subst hl
      rw [inner2Rows_eq_filter] at hp
      exact List.mem_of_mem_filter hp

/-- C8 instantiated: the single inner-join row of `x = [0]`, `y = [0]`,
`tolerance = [0]`, `nomatch = -1` is a row of the left join. -/
theorem c8_witness : ((1 : ℕ), (1 : ℤ)) ∈ [((1 : ℕ), (1 : ℤ))] :=
  c8_inner_rows_in_left [0] [0] [0] (-1) (by decide) (by decide) rfl (by decide)
    [(1, 1)] [(1, 1)] (by decide) (by decide) (1, 1) (by decide)

/-- C10: the outer-join scan terminates and never writes out of bounds:
every iteration that still has work advances the cursor sum, so after
`n + m` iterations both cursors are exhausted; the number of committed
rows never exceeds `n + m` at any point (so every write lands inside the
`n + m`-sized buffers); and whenever `i_path ≠ 0` — the only situation in
which the issue-#66 `idx--` can fire — at least one row has already been
emitted, so the decrement never targets a slot before the first row. -/
theorem c10_outer_safety (x y tol : List ℚ) (k : ℕ) :
    ((outerRun x y tol k).xi < x.length ∨ (outerRun x y tol k).yi < y.length →
      (outerRun x y tol k).xi + (outerRun x y tol k).yi <
        (outerRun x y tol (k + 1)).xi + (outerRun x y tol (k + 1)).yi) ∧
    (outerRun x y tol k).out.length ≤ x.length + y.length ∧
    ((outerRun x y tol k).ipath ≠ 0 → (outerRun x y tol k).out ≠ []) ∧
    (x.length + y.length ≤ k →
      (outerRun x y tol k).xi = x.length ∧ (outerRun x y tol k).yi = y.length) := by
  have hI := OInv_run x y tol k
  refine ⟨?_, ?_, hI.hne, outerRun_completes x y tol k⟩
  · intro hfin
    rw [outerRun_succ]
    have hG : outerStepG x y tol (outerRun x y tol k) =
        outerStep x y tol (outerRun x y tol k) := by
      unfold outerStepG
      rw [if_pos hfin]
    rw [hG]
    exact outerStep_advances x y tol (outerRun x y tol k) hfin
  · have h1 := hI.hlen
    have h2 := hI.hxi
    have h3 := hI.hyi
    omega

/-- C10 instantiated on a concrete run: on `x = [0, 1]`, `y = [1]`,
`tolerance = [2, 2]`, after `n + m = 3` iterations both cursors are
exhausted. -/
theorem c10_witness :
    (outerRun [0, 1] [1] [2, 2] 3).xi = 2 ∧ (outerRun [0, 1] [1] [2, 2] 3).yi = 1 :=
  (c10_outer_safety [0, 1] [1] [2, 2] 3).2.2.2 (by decide)

/-- C1 corrected: when the current pair is within tolerance but one
look-ahead distance is strictly better, the scan advances only the cursor
with the better look-ahead (ties broken toward advancing `y`) and emits
THAT SAME advanced side's current element as the unmatched row — except
when the previous step's recorded direction is the OPPOSITE one (`i_path > 0`,
i.e. the previous step advanced `y`, while we now advance `x`, or
symmetrically `i_path < 0` for a `y` advance), in which case no fresh row
is emitted: the output index is decremented and the previously emitted row
is overwritten, becoming a full pairing (its other column was `some`, and
the advanced side's column is set). -/
theorem c1_amended (x y tol : List ℚ) (s : OuterState)
    (hx : s.xi < x.length) (hy : s.yi < y.length)
    (htol : curDiff x y s.xi s.yi ≤ tol.getD s.xi 0)
    (hb : (bltQI (lookX x y s.xi s.yi) (some (curDiff x y s.xi s.yi)) ||
      bltQI (lookY x y s.xi s.yi) (some (curDiff x y s.xi s.yi))) = true) :
    (bltQI (lookX x y s.xi s.yi) (lookY x y s.xi s.yi) = true →
      (outerStep x y tol s).xi = s.xi + 1 ∧ (outerStep x y tol s).yi = s.yi ∧
      (outerStep x y tol s).ipath = -1 ∧
      (0 < s.ipath → ∀ rest r j, s.out = rest ++ [r] → r.2 = some j →
        (outerStep x y tol s).out = rest ++ [(some (s.xi + 1), some j)]) ∧
      (s.ipath ≤ 0 →
        (outerStep x y tol s).out = s.out ++ [(some (s.xi + 1), none)])) ∧
    (bltQI (lookX x y s.xi s.yi) (lookY x y s.xi s.yi) = false →
      (outerStep x y tol s).xi = s.xi ∧ (outerStep x y tol s).yi = s.yi + 1 ∧
      (outerStep x y tol s).ipath = 1 ∧
      (s.ipath < 0 → ∀ rest r i, s.out = rest ++ [r] → r.1 = some i →
        (outerStep x y tol s).out = rest ++ [(some i, some (s.yi + 1))]) ∧
      (0 ≤ s.ipath →
        (outerStep x y tol s).out = s.out ++ [(none, some (s.yi + 1))])) := by
  have h1 : ¬ x.length ≤ s.xi := not_le.mpr hx
  have h2 : ¬ y.length ≤ s.yi := not_le.mpr hy
  constructor
  · intro hxy
    by_cases hp : 0 < s.ipath
    · rw [outerStep_x66 x y tol s h1 h2 htol hb hxy hp]
      refine ⟨rfl, rfl, rfl, ?_, ?_⟩
      · intro _ rest r j hout hr2
        simp [hout, setLast_append_singleton, hr2]
      · intro hle
        exact absurd hp (not_lt.mpr hle)
    · rw [outerStep_xPlain x y tol s h1 h2 htol hb hxy hp]
      exact ⟨rfl, rfl, rfl, fun h => absurd h hp, fun _ => rfl⟩
  · intro hxy
    by_cases hp : s.ipath < 0
    · rw [outerStep_y66 x y tol s h1 h2 htol hb hxy hp]
      refine ⟨rfl, rfl, rfl, ?_, ?_⟩
      · intro _ rest r i hout hr1
        simp [hout, setLast_append_singleton, hr1]
      · intro hle
        exact absurd hp (not_lt.mpr hle)
    · rw [outerStep_yPlain x y tol s h1 h2 htol hb hxy hp]
      exact ⟨rfl, rfl, rfl, fun h => absurd h hp, fun _ => rfl⟩

/-- C1 amended claim, checked on a concrete run: at the first step on
`x = [0, 1]`, `y = [1]`, `tolerance = [2, 2]` the `x` look-ahead is better
and the previous direction is neutral, so the scan advances `x` and emits
the x side's current element `(1, NA)`. -/
theorem c1_witness :
    (outerStep [0, 1] [1] [2, 2] ⟨0, 0, 0, []⟩).xi = 1 ∧
    (outerStep [0, 1] [1] [2, 2] ⟨0, 0, 0, []⟩).out = [(some 1, none)] := by
  have h := c1_amended [0, 1] [1] [2, 2] ⟨0, 0, 0, []⟩ (by decide) (by decide)
    (by decide) (by decide)
  have h1 := h.1 (by decide)
  exact ⟨h1.1, h1.2.2.2.2 (by decide)⟩

/-- C4 corrected: `C_join_outer` and `C_join_left` fail with the usage
error exactly when the tolerance length differs from `length(x)` (even a
scalar tolerance must already be expanded by the caller); the
resolver-based `C_join_left2` and `C_join_inner2` fail exactly when the
tolerance is neither of matching length nor a scalar; in all cases the
error is reported before any output row is produced. `C_join_outer2`
performs no tolerance-length validation at all and never raises the
error. -/
theorem c4_amended (x y tol : List ℚ) (nm : ℤ) :
    (joinOuter x y tol = none ↔ x.length ≠ tol.length) ∧
    (joinLeft x y tol = none ↔ x.length ≠ tol.length) ∧
    (joinLeft2 x y tol nm = none ↔ tol.length ≠ x.length ∧ tol.length ≠ 1) ∧
    (joinInner2 x y tol nm = none ↔ tol.length ≠ x.length ∧ tol.length ≠ 1) ∧
    joinOuter2 x y tol nm ≠ none := by
  refine ⟨?_, ?_, ?_, ?_, ?_⟩
  · by_cases h : x.length = tol.length <;> simp [joinOuter, h]
  · by_cases h : x.length = tol.length <;> simp [joinLeft, h]
  · by_cases h1 : tol.length = x.length <;> by_cases h2 : tol.length = 1 <;>
      simp [joinLeft2, closestDupClosest, h1, h2] <;> split <;> simp
  · by_cases h1 : tol.length = x.length <;> by_cases h2 : tol.length = 1 <;>
      simp [joinInner2, closestDupClosest, h1, h2] <;> split <;> simp
  · simp [joinOuter2]

/-- C2 corrected: the inner join equals the left join with every row whose
right-column entry equals the sentinel removed; the surviving left-column
entries keep their ORIGINAL left index (they are not renumbered), the
right-column entries keep their matched index, and row order is preserved
ascending by original left index. -/
theorem c2_inner_is_filtered_left (x y tol : List ℚ) (nm : ℤ) :
    joinInner2 x y tol nm =
      (joinLeft2 x y tol nm).map fun rows =>
        rows.filter fun r => !(r.2 == nm) := by
  unfold joinInner2 joinLeft2
  cases closestDupClosest x y tol nm with
  | none => rfl
  | some ry => simp [inner2Rows_eq_filter]

end MsJoin
